import Mathlib

/-!
Shallow embedding of the sego Chinese word segmenter (segmenter.go) and a
verification of the specification's claims about it.

Modelling conventions:
* Go byte slices (`[]byte`, and Go strings, which are byte sequences) are
  `List Nat`, each element a byte value.
* `Text` (token.go, an atomic text unit) is a byte list; a token's text is a
  list of units.
* Go `float32` path costs are modelled as integers in the dynamic
  program: the structural claims proved below hold for every cost
  assignment and use only the ordered additive structure that `float32`
  and `Int` share, and the `log2` cost formula of `LoadDictionary` is
  modelled over the real numbers.
* A nil-pointer dereference or an infinite loop in the Go code is modelled
  by an `Option` result being `none`.
* The dictionary (dictionary.go) and the `Text`/`Segment` helper types are
  not part of the provided source; they are modelled from the
  specification (see the individual doc comments).
-/

/-- A unit of text: a byte slice (Go type `Text = []byte` of token.go,
modelled from the spec: a unit is a read-only byte slice). -/
abbrev UText := List Nat

/-- Model of Go `utf8.DecodeRune`: returns the decoded code point and the
number of bytes consumed.  Invalid input yields `(0xFFFD, 1)` (`RuneError`),
and the empty slice yields size 0, exactly as in the Go standard library
(including the dependence of the accepted second-byte range on the first
byte, which rejects overlong encodings and surrogates). -/
def decodeRune (p : List Nat) : Nat × Nat :=
  match p with
  | [] => (0xFFFD, 0)
  | b0 :: rest =>
    if b0 < 0x80 then (b0, 1)
    else if b0 < 0xC2 then (0xFFFD, 1)
    else if b0 < 0xE0 then
      match rest with
      | [] => (0xFFFD, 1)
      | b1 :: _ =>
        if 0x80 ≤ b1 ∧ b1 ≤ 0xBF then ((b0 - 0xC0) * 64 + (b1 - 0x80), 2)
        else (0xFFFD, 1)
    else if b0 < 0xF0 then
      match rest with
      | [] => (0xFFFD, 1)
      | b1 :: rest2 =>
        if (if b0 = 0xE0 then 0xA0 else 0x80) ≤ b1 ∧
            b1 ≤ (if b0 = 0xED then 0x9F else 0xBF) then
          match rest2 with
          | [] => (0xFFFD, 1)
          | b2 :: _ =>
            if 0x80 ≤ b2 ∧ b2 ≤ 0xBF then
              ((b0 - 0xE0) * 4096 + (b1 - 0x80) * 64 + (b2 - 0x80), 3)
            else (0xFFFD, 1)
        else (0xFFFD, 1)
    else if b0 < 0xF5 then
      match rest with
      | [] => (0xFFFD, 1)
      | b1 :: rest2 =>
        if (if b0 = 0xF0 then 0x90 else 0x80) ≤ b1 ∧
            b1 ≤ (if b0 = 0xF4 then 0x8F else 0xBF) then
          match rest2 with
          | [] => (0xFFFD, 1)
          | b2 :: rest3 =>
            if 0x80 ≤ b2 ∧ b2 ≤ 0xBF then
              match rest3 with
              | [] => (0xFFFD, 1)
              | b3 :: _ =>
                if 0x80 ≤ b3 ∧ b3 ≤ 0xBF then
                  ((b0 - 0xF0) * 262144 + (b1 - 0x80) * 4096 +
                    (b2 - 0x80) * 64 + (b3 - 0x80), 4)
                else (0xFFFD, 1)
            else (0xFFFD, 1)
        else (0xFFFD, 1)
    else (0xFFFD, 1)

/-- Inclusive code-point ranges on which Go's
`unicode.IsLetter(r) || unicode.IsNumber(r)` holds, restricted to code
points below U+0800 — the only code points decodable from at most two
bytes, which is the only case in which `splitTextToWords` consults the
classification (it tests `size <= 2` first).  Transcribed from the Unicode
letter and number tables for the Latin, IPA, spacing-modifier, Greek,
Cyrillic, Armenian, Hebrew, Arabic, Syriac, Thaana and NKo blocks. -/
def alnumRanges : List (Nat × Nat) :=
  [(0x30, 0x39), (0x41, 0x5A), (0x61, 0x7A),
   (0xAA, 0xAA), (0xB2, 0xB3), (0xB5, 0xB5), (0xB9, 0xBA), (0xBC, 0xBE),
   (0xC0, 0xD6), (0xD8, 0xF6), (0xF8, 0x2C1),
   (0x2C6, 0x2D1), (0x2E0, 0x2E4), (0x2EC, 0x2EC), (0x2EE, 0x2EE),
   (0x370, 0x374), (0x376, 0x377), (0x37A, 0x37D), (0x37F, 0x37F),
   (0x386, 0x386), (0x388, 0x38A), (0x38C, 0x38C), (0x38E, 0x3A1),
   (0x3A3, 0x3F5), (0x3F7, 0x481), (0x48A, 0x52F),
   (0x531, 0x556), (0x559, 0x559), (0x560, 0x588),
   (0x5D0, 0x5EA), (0x5EF, 0x5F2),
   (0x620, 0x64A), (0x660, 0x669), (0x66E, 0x66F), (0x671, 0x6D3),
   (0x6D5, 0x6D5), (0x6E5, 0x6E6), (0x6EE, 0x6FC), (0x6FF, 0x6FF),
   (0x710, 0x710), (0x712, 0x72F), (0x74D, 0x7A5), (0x7B1, 0x7B1),
   (0x7C0, 0x7EA), (0x7F4, 0x7F5), (0x7FA, 0x7FA)]

/-- Model of `unicode.IsLetter(r) || unicode.IsNumber(r)` as used by
`splitTextToWords` (only reachable for code points below U+0800, see
`alnumRanges`). -/
def isAlnumRune (r : Nat) : Bool :=
  alnumRanges.any (fun q => q.1 ≤ r && r ≤ q.2)

/-- Model of `toLower` (segmenter.go): ASCII upper-case letters are folded
to lower case, all other bytes are kept. -/
def toLower (text : List Nat) : List Nat :=
  text.map (fun t => if 65 ≤ t ∧ t ≤ 90 then t - 65 + 97 else t)

/-- The Go slice expression `text[a:b]`. -/
def sliceBytes (text : List Nat) (a b : Nat) : List Nat :=
  (text.take b).drop a

/-- The loop of `splitTextToWords` (segmenter.go lines 245-263) plus the
trailing-run flush (lines 266-270), as a recursion over the cursor
`current`; `inAlphanumeric` and `alphanumericStart` are the loop state.
The recursion is made structural over a `fuel` argument so that the
function reduces inside the kernel; every lemma below assumes
`text.length ≤ fuel + current`, under which the out-of-fuel branch is
unreachable (each step advances `current` by at least one byte), so the
fuel never alters the modelled behavior. -/
def splitLoop (text : List Nat) (fuel current : Nat) (inAlphanumeric : Bool)
    (alphanumericStart : Nat) : List UText :=
  if current < text.length then
    match fuel with
    | 0 => []
    | fuel + 1 =>
      let d := decodeRune (text.drop current)
      if d.2 ≤ 2 ∧ isAlnumRune d.1 = true then
        -- current rune is a Latin letter or digit
        if inAlphanumeric then
          splitLoop text fuel (current + d.2) true alphanumericStart
        else
          splitLoop text fuel (current + d.2) true current
      else
        (if inAlphanumeric ∧ current ≠ 0 then
          [toLower (sliceBytes text alphanumericStart current)]
        else []) ++
        sliceBytes text current (current + d.2) ::
          splitLoop text fuel (current + d.2) false alphanumericStart
  else
    -- flush of a trailing alphanumeric run
    if inAlphanumeric ∧ current ≠ 0 then
      [toLower (sliceBytes text alphanumericStart current)]
    else []

/-- Model of `splitTextToWords` (segmenter.go): split a byte text into
atomic units. -/
def splitTextToWords (text : List Nat) : List UText :=
  splitLoop text text.length 0 true 0

/-- The code-point boundary positions of a byte text: the positions
reachable from 0 by repeatedly adding the byte size consumed by
`decodeRune` (again structurally recursive over a fuel argument). -/
def boundariesFrom (text : List Nat) (fuel current : Nat) : List Nat :=
  if current < text.length then
    match fuel with
    | 0 => [current]
    | fuel + 1 =>
      current :: boundariesFrom text fuel (current + (decodeRune (text.drop current)).2)
  else [current]

/-- A byte position that is the start of a decoded code point (or the end
of the text): no such position lies strictly inside a code point. -/
def IsBoundary (text : List Nat) (p : Nat) : Prop :=
  p ∈ boundariesFrom text text.length 0

instance (text : List Nat) (p : Nat) : Decidable (IsBoundary text p) := by
  unfold IsBoundary
  infer_instance

/-- The byte offsets of the unit boundaries of a unit sequence laid out
starting at byte offset `p`: `p`, then the cumulative sums of the unit
byte lengths. -/
def unitOffsets : List UText → Nat → List Nat
  | [], p => [p]
  | u :: us, p => p :: unitOffsets us (p + u.length)

/-- Relation between a byte and its possibly ASCII-lower-cased image; used
to show that re-splitting the concatenation of a split's units retraces the
original split (the concatenation differs from the input only by
lower-casing of alphanumeric-run bytes). -/
def lowerByteRel (x y : Nat) : Prop :=
  y = x ∨ (65 ≤ x ∧ x ≤ 90 ∧ y = x + 32)

/-- Pointwise `lowerByteRel` between two byte texts. -/
def lowerSim (a b : List Nat) : Prop :=
  List.Forall₂ lowerByteRel a b

/-- A dictionary entry (`Token` of token.go, modelled from the spec §3:
normalized unit sequence, frequency, derived cost, optional pos tag).  The
Go struct's `distance float32` is modelled as an exact rational (see the
header comment); the precomputed `segments` sub-segmentation list (used
only by output formatting helpers outside the claims) is not modelled. -/
structure Token where
  text : List UText
  frequency : Nat
  distance : Int
  pos : List Nat
deriving DecidableEq

instance : Inhabited Token := ⟨⟨[], 0, 0, []⟩⟩

/-- An output segment (`Segment` of segment.go, modelled from the spec §3:
chosen token plus byte offsets, end exclusive).  The Go field `end` is
named `endPos` (`end` is a Lean keyword). -/
structure Segment where
  start : Nat
  endPos : Nat
  token : Token
deriving DecidableEq

/-- Modelled from the spec §3/§4.2 (dictionary.go is not part of the
provided source): the dictionary stores the accepted tokens and
accumulates `totalFrequency` and `maxTokenLength`. -/
structure Dictionary where
  tokens : List Token
  totalFrequency : Nat
  maxTokenLength : Nat
deriving DecidableEq

/-- Modelled from the spec: a fresh, empty dictionary. -/
def NewDictionary : Dictionary := ⟨[], 0, 0⟩

/-- Modelled from the spec §4.2: store a term, accumulate `totalFrequency`
over all accepted terms, and track `maxTermLength`. -/
def addToken (dict : Dictionary) (token : Token) : Dictionary :=
  { tokens := dict.tokens ++ [token],
    totalFrequency := dict.totalFrequency + token.frequency,
    maxTokenLength := max dict.maxTokenLength token.text.length }

/-- Modelled from the spec §4.3: all tokens whose full normalized text is
a prefix of the given unit slice, ordered by ascending text length. -/
def lookupTokens (dict : Dictionary) (words : List UText) : List Token :=
  (List.range (dict.maxTokenLength + 1)).flatMap fun l =>
    dict.tokens.filter fun t => decide (t.text.length = l ∧ t.text <+: words)

/-- Modelled from the spec §3 (token.go): the byte length of a unit
sequence is the sum of its units' byte lengths. -/
def textSliceByteLength (words : List UText) : Nat :=
  (words.map List.length).sum

/-- The per-position DP state (`jumper`, segmenter.go lines 24-27): the
minimal path cost to reach this unit position and the token chosen to
arrive there.  The Go `token *Token` nil pointer is `none`. -/
structure jumper where
  minDistance : Int
  token : Option Token
deriving DecidableEq

/-- The zero value a fresh `jumper` array cell has in Go. -/
def initJumper : jumper := ⟨0, none⟩

/-- Model of `updateJumper` (segmenter.go lines 215-221): update the cell
when its recorded cost is zero (the code's "unvisited" sentinel) or larger
than the candidate cost. -/
def updateJumper (j : jumper) (baseDistance : Int) (token : Token) : jumper :=
  let newDistance := baseDistance + token.distance
  if j.minDistance = 0 ∨ j.minDistance > newDistance then
    { minDistance := newDistance, token := some token }
  else j

/-- The pseudo-token guard of segmenter.go line 177:
`numTokens == 0 || len(tokens[0].text) > 1`. -/
def pseudoNeeded (toks : List Token) : Bool :=
  decide (toks.length = 0 ∨ 1 < (toks.headD default).text.length)

/-- The body of the match-update loop of `segmentWords` (segmenter.go
lines 169-174): update the cell at the match's end position, except — in
search mode only — for a match starting at position 0 and ending at the
last position (Go: `if !searchMode || current != 0 || location != len(text)-1`). -/
def applyTokenUpdate (searchMode : Bool) (text : List UText) (current : Nat)
    (baseDistance : Int) (js : List jumper) (tok : Token) : List jumper :=
  let location := current + tok.text.length - 1
  if searchMode = true ∧ current = 0 ∧ location = text.length - 1 then js
  else js.set location (updateJumper (js.getD location initJumper) baseDistance tok)

/-- One iteration of the forward pass of `segmentWords` (segmenter.go
lines 154-181) at position `current`: compute the base distance, look up
all matching tokens, update each match's end cell, and inject the
pseudo-token when no single-unit match exists. -/
def processPosition (dict : Dictionary) (searchMode : Bool) (text : List UText)
    (jumpers : List jumper) (current : Nat) : List jumper :=
  let baseDistance : Int :=
    if current = 0 then 0 else (jumpers.getD (current - 1) initJumper).minDistance
  let toks := lookupTokens dict ((text.drop current).take dict.maxTokenLength)
  let jumpers1 := toks.foldl (applyTokenUpdate searchMode text current baseDistance)
    jumpers
  if pseudoNeeded toks then
    jumpers1.set current (updateJumper (jumpers1.getD current initJumper) baseDistance
      { text := [text.getD current []], frequency := 1, distance := 32, pos := [120] })
  else jumpers1

/-- The whole forward pass of `segmentWords`: left-to-right over all unit
positions, starting from an all-zero (unvisited) jumper array. -/
def forwardPass (dict : Dictionary) (searchMode : Bool) (text : List UText) :
    List jumper :=
  (List.range text.length).foldl (processPosition dict searchMode text)
    (List.replicate text.length initJumper)

/-- The first backward scan of `segmentWords` (lines 184-189), counting
segments.  `n` is the number of unit positions still to cover (the Go
index is `n - 1`).  `none` models a nil-token dereference, and — via fuel
exhaustion, with fuel consumed each step — the infinite loop the Go code
enters on a zero-length token. -/
def numSegScan (jumpers : List jumper) (fuel n : Nat) : Option Nat :=
  if n = 0 then some 0
  else
    match fuel with
    | 0 => none
    | fuel + 1 =>
      match (jumpers.getD (n - 1) initJumper).token with
      | none => none
      | some tok => (numSegScan jumpers fuel (n - tok.text.length)).map (· + 1)

/-- The second backward scan of `segmentWords` (lines 192-198), collecting
the chosen tokens; filling the output array back-to-front is modelled by
appending each token after its predecessors' (left-to-right) list.  Same
failure modelling as `numSegScan`. -/
def backTokensScan (jumpers : List jumper) (fuel n : Nat) : Option (List Token) :=
  if n = 0 then some []
  else
    match fuel with
    | 0 => none
    | fuel + 1 =>
      match (jumpers.getD (n - 1) initJumper).token with
      | none => none
      | some tok => (backTokensScan jumpers fuel (n - tok.text.length)).map (· ++ [tok])

/-- The byte-position assignment loop of `segmentWords` (lines 201-206):
accumulate each token's byte length left to right from 0. -/
def assignBytes : List Token → Nat → List Segment
  | [], _ => []
  | t :: ts, p =>
    { start := p, endPos := p + textSliceByteLength t.text, token := t } ::
      assignBytes ts (p + textSliceByteLength t.text)

/-- Model of `segmentWords` (segmenter.go lines 143-208). -/
def segmentWords (dict : Dictionary) (text : List UText) (searchMode : Bool) :
    Option (List Segment) :=
  if searchMode = true ∧ text.length = 1 then some []
  else
    let jumpers := forwardPass dict searchMode text
    (backTokensScan jumpers text.length text.length).map fun toks =>
      assignBytes toks 0

/-- The segmenter facade (`Segmenter`). -/
structure Segmenter where
  dict : Dictionary

/-- Model of `internalSegment` (segmenter.go lines 131-141). -/
def Segmenter.internalSegment (seg : Segmenter) (bytes : List Nat)
    (searchMode : Bool) : Option (List Segment) :=
  if bytes.length = 0 then some []
  else segmentWords seg.dict (splitTextToWords bytes) searchMode

/-- Model of the public `InternalSegment` method. -/
def Segmenter.InternalSegment (seg : Segmenter) (bytes : List Nat)
    (searchMode : Bool) : Option (List Segment) :=
  seg.internalSegment bytes searchMode

/-- Model of the public `Segment` method (plain mode). -/
def Segmenter.Segment (seg : Segmenter) (bytes : List Nat) :
    Option (List Segment) :=
  seg.internalSegment bytes false

/-- `minTokenFrequency` (segmenter.go line 15). -/
def minTokenFrequency : Int := 2

/-- The ASCII whitespace byte set of `strings.Fields`' fast path (the
`asciiSpace` table): tab, newline, vertical tab, form feed, carriage
return, space. -/
def goIsSpace (b : Nat) : Bool :=
  b = 9 || b = 10 || b = 11 || b = 12 || b = 13 || b = 32

/-- Model of `unicode.IsSpace` on a decoded code point: Go's
`White_Space` table — U+0009-U+000D and U+0020, U+0085, U+00A0, U+1680,
U+2000-U+200A, U+2028, U+2029, U+202F, U+205F, U+3000. -/
def isSpaceRune (r : Nat) : Bool :=
  (9 ≤ r && r ≤ 13) || r = 32 || r = 0x85 || r = 0xA0 || r = 0x1680 ||
  (0x2000 ≤ r && r ≤ 0x200A) || r = 0x2028 || r = 0x2029 || r = 0x202F ||
  r = 0x205F || r = 0x3000

/-- Model of `strings.FieldsFunc(s, unicode.IsSpace)`: decode the line
rune by rune (an invalid byte decodes to U+FFFD, which is not a space)
and collect the maximal runs of bytes belonging to non-space runes.
`acc` is the pending run; the fuel is structural exactly as in
`splitLoop` and is unreachable from `fieldsFuncSpace s s.length 0 []`. -/
def fieldsFuncSpace (s : List Nat) (fuel current : Nat) (acc : List Nat) :
    List (List Nat) :=
  if current < s.length then
    match fuel with
    | 0 => []
    | fuel + 1 =>
      let d := decodeRune (s.drop current)
      if isSpaceRune d.1 then
        (if acc.isEmpty then [] else [acc]) ++
          fieldsFuncSpace s fuel (current + d.2) []
      else
        fieldsFuncSpace s fuel (current + d.2)
          (acc ++ sliceBytes s current (current + d.2))
  else
    if acc.isEmpty then [] else [acc]

/-- Model of `strings.Fields`: when every byte of the line is ASCII
(below `utf8.RuneSelf`), the byte-level fast path splitting on the
`asciiSpace` bytes; otherwise `FieldsFunc` with `unicode.IsSpace` over
the decoded runes. -/
def goFields (line : List Nat) : List (List Nat) :=
  if line.all (fun b => b < 0x80) then
    (List.splitOnP goIsSpace line).filter fun f => !f.isEmpty
  else
    fieldsFuncSpace line line.length 0 []

/-- Model of `strconv.Atoi` on a 64-bit platform: an optional sign
followed by at least one decimal digit and nothing else, and — like
`ParseInt`'s range error, which `Atoi` surfaces as a non-nil error —
failure when the value does not fit a signed 64-bit integer. -/
def atoiBytes (s : List Nat) : Option Int :=
  match s with
  | [] => none
  | b :: rest =>
    if b = 43 then (digitsVal rest).bind fun n =>
      if n ≤ 9223372036854775807 then some (n : Int) else none
    else if b = 45 then (digitsVal rest).bind fun n =>
      if n ≤ 9223372036854775808 then some (-(n : Int)) else none
    else (digitsVal s).bind fun n =>
      if n ≤ 9223372036854775807 then some (n : Int) else none
where
  digitsVal (ds : List Nat) : Option Nat :=
    if ds ≠ [] ∧ ds.all (fun b => 48 ≤ b && b ≤ 57) then
      some (ds.foldl (fun acc b => acc * 10 + (b - 48)) 0)
    else none

/-- The body of the `LoadDictionary` record loop (segmenter.go lines
53-72) for one line: skip the line when it has fewer than two fields,
when the frequency does not parse, or when it is below
`minTokenFrequency`; otherwise normalize the text and add the token
(frequency and optional pos tag; the Go `Token` zero value leaves
`distance` at 0 during this phase). -/
def processLine (dict : Dictionary) (line : List Nat) : Dictionary :=
  let fields := goFields line
  if fields.length < 2 then dict
  else
    match atoiBytes (fields.getD 1 []) with
    | none => dict
    | some frequency =>
      if frequency < minTokenFrequency then dict
      else
        addToken dict
          { text := splitTextToWords (fields.getD 0 []),
            frequency := frequency.toNat, distance := 0,
            pos := if 3 ≤ fields.length then fields.getD 2 [] else [] }

/-- Model of `LoadDictionary` (segmenter.go lines 39-105), record-loading
phase: the `bufio` line loop is the fold of `processLine` over the
newline-separated chunks of the content.  The subsequent `float32`
distance-assignment loop (lines 76-80) is modelled separately by
`tokenCosts` below, and the sub-segmentation phase (lines 83-102) writes
only the unmodelled per-token `segments` field. -/
def Segmenter.LoadDictionary (content : List Nat) : Segmenter :=
  ⟨(content.splitOn 10).foldl processLine NewDictionary⟩

/-- The cost formula of segmenter.go lines 76-80 over the reals:
`log2(totalFrequency) - log2(frequency)`. -/
noncomputable def realCost (totalFrequency frequency : Nat) : ℝ :=
  Real.logb 2 totalFrequency - Real.logb 2 frequency

/-- The distance-assignment loop of `LoadDictionary` (lines 76-80): the
cost each stored token is assigned, in storage order. -/
noncomputable def tokenCosts (dict : Dictionary) : List ℝ :=
  dict.tokens.map fun t => realCost dict.totalFrequency t.frequency

instance : Inhabited Segment := ⟨⟨0, 0, default⟩⟩

/-- Well-formedness of a token recorded in the jumper cell at unit
position `i`: nonempty, fits to the left of `i`, its text is exactly the
input units it spans, and in search mode it is not the whole-input token
(whose update segmenter.go line 171 skips). -/
def cellTokenOK (searchMode : Bool) (text : List UText) (i : Nat) (tok : Token) : Prop :=
  1 ≤ tok.text.length ∧ tok.text.length ≤ i + 1 ∧
  tok.text = (text.take (i + 1)).drop (i + 1 - tok.text.length) ∧
  (searchMode = true → ¬(i = text.length - 1 ∧ tok.text.length = text.length))

/-- Invariant of one jumper cell: the zero sentinel really means
"no token recorded yet", and any recorded token is well formed. -/
def cellOK (searchMode : Bool) (text : List UText) (i : Nat) (j : jumper) : Prop :=
  (j.token = none → j.minDistance = 0) ∧
  ∀ tok, j.token = some tok → cellTokenOK searchMode text i tok

/-- Invariant of the whole jumper array. -/
def jumpersOK (searchMode : Bool) (text : List UText) (js : List jumper) : Prop :=
  js.length = text.length ∧
  ∀ i, i < js.length → cellOK searchMode text i (js.getD i initJumper)

/-- The cell at position `i` has a recorded token. -/
def isSomeAt (js : List jumper) (i : Nat) : Prop :=
  ((js.getD i initJumper).token).isSome = true

/-- All cells below `c` have a recorded token. -/
def progressOK (js : List jumper) (c : Nat) : Prop :=
  ∀ i, i < c → isSomeAt js i

/-- What is known of every token the dictionary lookup at position
`current` returns: nonempty, it fits inside the text, and its text equals
the input units it matches. -/
def writeOK (text : List UText) (current : Nat) (tok : Token) : Prop :=
  1 ≤ tok.text.length ∧ current + tok.text.length ≤ text.length ∧
  tok.text = (text.drop current).take tok.text.length

/-- Total byte length of a token sequence. -/
def sumBytes (toks : List Token) : Nat :=
  (toks.map fun t => textSliceByteLength t.text).sum

/-- A two-unit text whose whole text is itself a dictionary token, used to
show that plain mode does return the whole-input match that search mode
suppresses. -/
def sampleWholeToken : Token := ⟨[[33], [63]], 2, 1, []⟩

/-- A dictionary containing only `sampleWholeToken`. -/
def sampleWholeDict : Dictionary := ⟨[sampleWholeToken], 2, 2⟩

theorem decodeRune_size_pos (p : List Nat) (h : p ≠ []) :
    1 ≤ (decodeRune p).2 := by
  match p with
  | [] => exact absurd rfl h
  | b0 :: rest =>
    unfold decodeRune
    repeat' split
    all_goals simp_all

theorem decodeRune_size_le (p : List Nat) : (decodeRune p).2 ≤ p.length := by
  match p with
  | [] => simp [decodeRune]
  | b0 :: rest =>
    unfold decodeRune
    repeat' split
    all_goals (simp_all; try omega)

theorem length_toLower (l : List Nat) : (toLower l).length = l.length := by
  simp [toLower]

theorem length_sliceBytes (t : List Nat) (a b : Nat) :
    (sliceBytes t a b).length = min b t.length - a := by
  simp [sliceBytes]

theorem decodeRune_size_le_sub (text : List Nat) (current : Nat) :
    (decodeRune (text.drop current)).2 ≤ text.length - current := by
  have h := decodeRune_size_le (text.drop current)
  simpa using h

theorem splitLoop_sum_length (text : List Nat) :
    ∀ fuel current (inAl : Bool) aStart, text.length ≤ fuel + current →
      aStart ≤ current → current ≤ text.length →
      ((splitLoop text fuel current inAl aStart).map List.length).sum
        = (text.length - current) +
          (if inAl ∧ current ≠ 0 then current - aStart else 0) := by
  intro fuel
  induction fuel with
  | zero =>
    intro current inAl aStart hf ha hc
    have hnc : ¬ current < text.length := by omega
    rw [splitLoop]
    simp only [if_neg hnc]
    split
    · next hcond =>
      simp [length_toLower, length_sliceBytes]
      omega
    · simp
      omega
  | succ fuel ih =>
    intro current inAl aStart hf ha hc
    by_cases hcur : current < text.length
    · rw [splitLoop]
      simp only [if_pos hcur]
      have hs1 : 1 ≤ (decodeRune (text.drop current)).2 :=
        decodeRune_size_pos _ (by simp [List.drop_eq_nil_iff]; omega)
      have hs2 := decodeRune_size_le_sub text current
      split
      · next hclass =>
        cases inAl with
        | true =>
          simp only [if_true]
          rw [ih (current + (decodeRune (text.drop current)).2) true aStart
            (by omega) (by omega) (by omega)]
          by_cases h0 : current = 0
          · subst h0
            have haS : aStart = 0 := by omega
            subst haS
            simp at hs1 hs2
            have h1 : (decodeRune text).2 ≠ 0 := by omega
            simp [h1]
            omega
          · simp [h0]
            omega
        | false =>
          simp only [Bool.false_eq_true, if_false]
          rw [ih (current + (decodeRune (text.drop current)).2) true current
            (by omega) (by omega) (by omega)]
          have h0 : current + (decodeRune (text.drop current)).2 ≠ 0 := by omega
          simp [h0]
          omega
      · next hclass =>
        rw [List.map_append, List.sum_append]
        rw [List.map_cons, List.sum_cons]
        rw [ih (current + (decodeRune (text.drop current)).2) false aStart
          (by omega) (by omega) (by omega)]
        simp only [Bool.false_eq_true, false_and, if_neg, length_sliceBytes]
        split
        · next hcond =>
          simp [length_toLower, length_sliceBytes]
          omega
        · next hcond =>
          simp
          omega
    · rw [splitLoop]
      simp only [if_neg hcur]
      split
      · next hcond =>
        simp [length_toLower, length_sliceBytes]
        omega
      · simp
        omega

/-- The byte lengths of the units of a split sum to the input's byte
length. -/
theorem splitTextToWords_sum_length (text : List Nat) :
    ((splitTextToWords text).map List.length).sum = text.length := by
  rw [splitTextToWords, splitLoop_sum_length text text.length 0 true 0
    (by omega) (by omega) (by omega)]
  simp

/-- A nonempty input splits into a nonempty unit sequence. -/
theorem splitTextToWords_ne_nil (text : List Nat) (h : text ≠ []) :
    splitTextToWords text ≠ [] := by
  intro hcon
  have := splitTextToWords_sum_length text
  rw [hcon] at this
  simp at this
  exact h (List.length_eq_zero.mp this.symm)

theorem mem_boundariesFrom_self (text : List Nat) (fuel current : Nat) :
    current ∈ boundariesFrom text fuel current := by
  rw [boundariesFrom.eq_def]
  split
  · split <;> simp
  · simp

theorem boundariesFrom_closed (text : List Nat) :
    ∀ fuel current p, text.length ≤ fuel + current →
      p ∈ boundariesFrom text fuel current → p < text.length →
      p + (decodeRune (text.drop p)).2 ∈ boundariesFrom text fuel current := by
  intro fuel
  induction fuel with
  | zero =>
    intro current p hf hp hlt
    rw [boundariesFrom.eq_def] at hp ⊢
    have : ¬ current < text.length := by omega
    simp [this] at hp ⊢
    omega
  | succ fuel ih =>
    intro current p hf hp hlt
    rw [boundariesFrom.eq_def] at hp ⊢
    by_cases hcur : current < text.length
    · simp only [if_pos hcur] at hp ⊢
      rcases List.mem_cons.mp hp with hpc | hptail
      · subst hpc
        right
        have h1 : 1 ≤ (decodeRune (text.drop p)).2 :=
          decodeRune_size_pos _ (by simp [List.drop_eq_nil_iff]; omega)
        exact mem_boundariesFrom_self text fuel _
      · right
        have h1 : 1 ≤ (decodeRune (text.drop current)).2 :=
          decodeRune_size_pos _ (by simp [List.drop_eq_nil_iff]; omega)
        exact ih _ p (by omega) hptail hlt
    · simp [hcur] at hp ⊢
      omega

theorem isBoundary_step (text : List Nat) (p : Nat) (h : IsBoundary text p)
    (hlt : p < text.length) :
    IsBoundary text (p + (decodeRune (text.drop p)).2) :=
  boundariesFrom_closed text text.length 0 p (by omega) h hlt

theorem isBoundary_zero (text : List Nat) : IsBoundary text 0 :=
  mem_boundariesFrom_self text text.length 0

theorem offsets_flush_mem (text : List Nat) (current aStart : Nat) (inAl : Bool)
    (ha : aStart ≤ current) (hc : current ≤ text.length)
    (hbc : IsBoundary text current) (hba : IsBoundary text aStart) :
    ∀ q ∈ unitOffsets
        (if inAl ∧ current ≠ 0 then [toLower (sliceBytes text aStart current)] else [])
        (if inAl then aStart else current),
      IsBoundary text q := by
  intro q hq
  by_cases hcond : (inAl = true) ∧ current ≠ 0
  · obtain ⟨hia, h0⟩ := hcond
    simp only [hia, if_pos, true_and, if_true] at hq
    rw [if_pos h0] at hq
    simp [unitOffsets, length_toLower, length_sliceBytes] at hq
    have hmin : aStart + (min current text.length - aStart) = current := by omega
    rcases hq with rfl | rfl
    · exact hba
    · rw [hmin]
      exact hbc
  · rw [if_neg hcond] at hq
    simp [unitOffsets] at hq
    subst hq
    cases hAl : inAl with
    | true =>
      simpa using hba
    | false =>
      simpa using hbc

theorem mem_unitOffsets_append (us vs : List UText) (p q : Nat)
    (h : q ∈ unitOffsets (us ++ vs) p) :
    q ∈ unitOffsets us p ∨ q ∈ unitOffsets vs (p + (us.map List.length).sum) := by
  induction us generalizing p with
  | nil =>
    right
    simpa using h
  | cons u us ih =>
    rw [List.cons_append, unitOffsets] at h
    rcases List.mem_cons.mp h with hq | hq
    · left
      rw [unitOffsets]
      simp [hq]
    · rcases ih (p + u.length) hq with h1 | h1
      · left
        rw [unitOffsets]
        simp [h1]
      · right
        simpa [Nat.add_assoc] using h1

theorem splitLoop_offsets (text : List Nat) :
    ∀ fuel current (inAl : Bool) aStart, text.length ≤ fuel + current →
      aStart ≤ current → current ≤ text.length →
      IsBoundary text current → IsBoundary text aStart →
      ∀ q ∈ unitOffsets (splitLoop text fuel current inAl aStart)
            (if inAl then aStart else current),
        IsBoundary text q := by
  intro fuel
  induction fuel with
  | zero =>
    intro current inAl aStart hf ha hc hbc hba q hq
    have hnc : ¬ current < text.length := by omega
    rw [splitLoop] at hq
    rw [if_neg hnc] at hq
    exact offsets_flush_mem text current aStart inAl ha hc hbc hba q hq
  | succ fuel ih =>
    intro current inAl aStart hf ha hc hbc hba q hq
    by_cases hcur : current < text.length
    · rw [splitLoop] at hq
      rw [if_pos hcur] at hq
      have hs1 : 1 ≤ (decodeRune (text.drop current)).2 :=
        decodeRune_size_pos _ (by simp [List.drop_eq_nil_iff]; omega)
      have hs2 := decodeRune_size_le_sub text current
      have hstep : IsBoundary text (current + (decodeRune (text.drop current)).2) :=
        isBoundary_step text current hbc hcur
      by_cases hclass :
          (decodeRune (text.drop current)).2 ≤ 2 ∧
            isAlnumRune (decodeRune (text.drop current)).1 = true
      · rw [if_pos hclass] at hq
        cases hAl : inAl with
        | true =>
          subst hAl
          rw [if_pos rfl] at hq
          have := ih (current + (decodeRune (text.drop current)).2) true aStart
            (by omega) (by omega) (by omega) hstep hba q
          simp only [if_true] at this hq
          exact this hq
        | false =>
          subst hAl
          simp only [Bool.false_eq_true, if_false] at hq
          have := ih (current + (decodeRune (text.drop current)).2) true current
            (by omega) (by omega) (by omega) hstep hbc q
          simp only [if_true] at this
          exact this hq
      · rw [if_neg hclass] at hq
        -- the emitted output is pending-run ++ character-unit :: recursion
        rcases mem_unitOffsets_append _ _ _ _ hq with hleft | hright
        · -- inside the pending run's offsets: reuse the flush lemma
          exact offsets_flush_mem text current aStart inAl ha hc hbc hba q hleft
        · -- after the pending run: the character unit then the recursion
          have hsum : ((if inAl ∧ current ≠ 0 then
              [toLower (sliceBytes text aStart current)] else []).map
                List.length).sum = (if inAl then current else current) -
                  (if inAl then aStart else current) := by
            by_cases hcond : (inAl = true) ∧ current ≠ 0
            · obtain ⟨hia, h0⟩ := hcond
              subst hia
              rw [if_pos ⟨rfl, h0⟩]
              simp [length_toLower, length_sliceBytes]
              omega
            · rw [if_neg hcond]
              cases hAl : inAl with
              | true =>
                subst hAl
                have h0 : current = 0 := by
                  by_contra hne
                  exact hcond ⟨rfl, hne⟩
                simp [h0]
              | false => simp
          rw [hsum] at hright
          have hoff : (if inAl then aStart else current) +
              ((if inAl then current else current) -
                (if inAl then aStart else current)) = current := by
            cases hAl : inAl with
            | true =>
              subst hAl
              simp only [if_true]
              omega
            | false =>
              subst hAl
              simp only [Bool.false_eq_true, if_false]
              omega
          rw [hoff] at hright
          rw [unitOffsets] at hright
          have hchar : (sliceBytes text current
              (current + (decodeRune (text.drop current)).2)).length =
              (decodeRune (text.drop current)).2 := by
            rw [length_sliceBytes]
            omega
          rcases List.mem_cons.mp hright with rfl | htail
          · exact hbc
          · rw [hchar] at htail
            have := ih (current + (decodeRune (text.drop current)).2) false aStart
              (by omega) (by omega) (by omega) hstep hba q
            simp only [Bool.false_eq_true, if_false] at this
            exact this htail
    · rw [splitLoop] at hq
      rw [if_neg hcur] at hq
      exact offsets_flush_mem text current aStart inAl ha hc hbc hba q hq

/-- Every unit boundary of a split is a code-point boundary of the input. -/
theorem splitTextToWords_offsets (text : List Nat) :
    ∀ q ∈ unitOffsets (splitTextToWords text) 0, IsBoundary text q := by
  intro q hq
  have := splitLoop_offsets text text.length 0 true 0 (by omega) (by omega)
    (by omega) (isBoundary_zero text) (isBoundary_zero text) q
  simp only [if_true] at this
  exact this hq

theorem lowerByteRel_refl (x : Nat) : lowerByteRel x x := Or.inl rfl

theorem lowerSim_refl (l : List Nat) : lowerSim l l :=
  List.forall₂_same.mpr fun x _ => lowerByteRel_refl x

theorem lowerSim_toLower (l : List Nat) : lowerSim l (toLower l) := by
  induction l with
  | nil => exact List.Forall₂.nil
  | cons x xs ih =>
    refine List.Forall₂.cons ?_ ih
    by_cases h : 65 ≤ x ∧ x ≤ 90
    · right
      simp [toLower, h]
    · left
      simp [toLower, h]

theorem lowerSim_append {a b c d : List Nat} (h1 : lowerSim a b)
    (h2 : lowerSim c d) : lowerSim (a ++ c) (b ++ d) := by
  induction h1 with
  | nil => exact h2
  | cons hxy htail ih => exact List.Forall₂.cons hxy ih

theorem toLower_eq_of_sim {a b : List Nat} (h : lowerSim a b) :
    toLower a = toLower b := by
  induction h with
  | nil => rfl
  | cons hxy htail ih =>
    next x y a' b' =>
    simp only [toLower, List.map_cons] at ih ⊢
    rw [ih]
    rcases hxy with heq | ⟨h1, h2, heq⟩ <;> subst heq
    · rfl
    · have hny : ¬ (65 ≤ x + 32 ∧ x + 32 ≤ 90) := by omega
      have harith : x - 65 + 97 = x + 32 := by omega
      rw [if_pos ⟨h1, h2⟩, if_neg hny, harith]

theorem lowerByteRel_high {x y : Nat} (h : lowerByteRel x y) (hx : 128 ≤ x) :
    y = x := by
  rcases h with rfl | ⟨h1, h2, rfl⟩
  · rfl
  · omega

theorem lowerByteRel_cont {x y lo hi : Nat} (h : lowerByteRel x y)
    (hlo : 128 ≤ lo) : ((lo ≤ y ∧ y ≤ hi) ↔ (lo ≤ x ∧ x ≤ hi)) := by
  rcases h with rfl | ⟨h1, h2, rfl⟩
  · exact Iff.rfl
  · constructor <;> intro hc <;> omega

theorem isAlnumRune_upper {x : Nat} (h1 : 65 ≤ x) (h2 : x ≤ 90) :
    isAlnumRune x = true := by
  apply List.any_eq_true.mpr
  refine ⟨(65, 90), by simp [alnumRanges], ?_⟩
  simp only [decide_eq_true_eq, Bool.and_eq_true]
  exact ⟨by simpa using h1, by simpa using h2⟩

theorem isAlnumRune_lower {x : Nat} (h1 : 97 ≤ x) (h2 : x ≤ 122) :
    isAlnumRune x = true := by
  apply List.any_eq_true.mpr
  refine ⟨(97, 122), by simp [alnumRanges], ?_⟩
  simp only [decide_eq_true_eq, Bool.and_eq_true]
  exact ⟨by simpa using h1, by simpa using h2⟩

/-- `decodeRune` on two pointwise-`lowerByteRel` texts: the sizes agree,
the `size ≤ 2 && alphanumeric` classification agrees, and outside that
classification the consumed bytes agree exactly. -/
theorem decodeRune_sim {a b : List Nat} (h : lowerSim a b) :
    (decodeRune b).2 = (decodeRune a).2 ∧
    (((decodeRune b).2 ≤ 2 ∧ isAlnumRune (decodeRune b).1 = true) ↔
      ((decodeRune a).2 ≤ 2 ∧ isAlnumRune (decodeRune a).1 = true)) ∧
    (¬ ((decodeRune a).2 ≤ 2 ∧ isAlnumRune (decodeRune a).1 = true) →
      b.take (decodeRune a).2 = a.take (decodeRune a).2) := by
  cases h with
  | nil => simp [decodeRune]
  | cons hxy htail =>
    next x y a' b' =>
    rcases hxy with heq | ⟨hu1, hu2, heq⟩
    case inr =>
      -- lower-cased ASCII letter: both sides are single-byte letters
      subst heq
      have hx : x < 0x80 := by omega
      have hy : x + 32 < 0x80 := by omega
      have ha := isAlnumRune_upper hu1 hu2
      have hb : isAlnumRune (x + 32) = true :=
        isAlnumRune_lower (by omega) (by omega)
      simp only [decodeRune, if_pos hx, if_pos hy]
      simp [ha, hb]
    case inl =>
      rw [heq]
      by_cases h1 : x < 0x80
      · simp only [decodeRune, if_pos h1]
        simp
      by_cases h2 : x < 0xC2
      · simp only [decodeRune, if_neg h1, if_pos h2]
        simp
      by_cases h3 : x < 0xE0
      · -- two-byte sequence
        cases htail with
        | nil =>
          simp only [decodeRune, if_neg h1, if_neg h2, if_pos h3]
          simp
        | cons hxy1 htail1 =>
          next x1 y1 a'' b'' =>
          by_cases hc1 : 0x80 ≤ x1 ∧ x1 ≤ 0xBF
          · have : y1 = x1 := lowerByteRel_high hxy1 (by omega)
            subst this
            simp only [decodeRune, if_neg h1, if_neg h2, if_pos h3, if_pos hc1]
            simp
          · have hc1' : ¬ (0x80 ≤ y1 ∧ y1 ≤ 0xBF) := by
              rw [lowerByteRel_cont hxy1 (by omega)]
              exact hc1
            simp only [decodeRune, if_neg h1, if_neg h2, if_pos h3,
              if_neg hc1, if_neg hc1']
            simp
      by_cases h4 : x < 0xF0
      · -- three-byte sequence
        cases htail with
        | nil =>
          simp only [decodeRune, if_neg h1, if_neg h2, if_neg h3, if_pos h4]
          simp
        | cons hxy1 htail1 =>
          next x1 y1 a'' b'' =>
          by_cases hc1 : (if x = 0xE0 then 0xA0 else 0x80) ≤ x1 ∧
              x1 ≤ (if x = 0xED then 0x9F else 0xBF)
          · have : y1 = x1 := by
              refine lowerByteRel_high hxy1 ?_
              rcases hc1 with ⟨hl, _⟩
              by_cases hE : x = 0xE0 <;> simp [hE] at hl <;> omega
            subst this
            cases htail1 with
            | nil =>
              simp only [decodeRune, if_neg h1, if_neg h2, if_neg h3,
                if_pos h4, if_pos hc1]
              simp
            | cons hxy2 htail2 =>
              next x2 y2 a3 b3 =>
              by_cases hc2 : 0x80 ≤ x2 ∧ x2 ≤ 0xBF
              · have : y2 = x2 := lowerByteRel_high hxy2 (by omega)
                subst this
                simp only [decodeRune, if_neg h1, if_neg h2, if_neg h3,
                  if_pos h4, if_pos hc1, if_pos hc2]
                simp
              · have hc2' : ¬ (0x80 ≤ y2 ∧ y2 ≤ 0xBF) := by
                  rw [lowerByteRel_cont hxy2 (by omega)]
                  exact hc2
                simp only [decodeRune, if_neg h1, if_neg h2, if_neg h3,
                  if_pos h4, if_pos hc1, if_neg hc2, if_neg hc2']
                simp
          · have hc1' : ¬ ((if x = 0xE0 then 0xA0 else 0x80) ≤ y1 ∧
                y1 ≤ (if x = 0xED then 0x9F else 0xBF)) := by
              rw [lowerByteRel_cont hxy1 ?_]
              · exact hc1
              · by_cases hE : x = 0xE0 <;> simp [hE]
            simp only [decodeRune, if_neg h1, if_neg h2, if_neg h3,
              if_pos h4, if_neg hc1, if_neg hc1']
            simp
      by_cases h5 : x < 0xF5
      · -- four-byte sequence
        cases htail with
        | nil =>
          simp only [decodeRune, if_neg h1, if_neg h2, if_neg h3, if_neg h4,
            if_pos h5]
          simp
        | cons hxy1 htail1 =>
          next x1 y1 a'' b'' =>
          by_cases hc1 : (if x = 0xF0 then 0x90 else 0x80) ≤ x1 ∧
              x1 ≤ (if x = 0xF4 then 0x8F else 0xBF)
          · have : y1 = x1 := by
              refine lowerByteRel_high hxy1 ?_
              rcases hc1 with ⟨hl, _⟩
              by_cases hF : x = 0xF0 <;> simp [hF] at hl <;> omega
            subst this
            cases htail1 with
            | nil =>
              simp only [decodeRune, if_neg h1, if_neg h2, if_neg h3,
                if_neg h4, if_pos h5, if_pos hc1]
              simp
            | cons hxy2 htail2 =>
              next x2 y2 a3 b3 =>
              by_cases hc2 : 0x80 ≤ x2 ∧ x2 ≤ 0xBF
              · have : y2 = x2 := lowerByteRel_high hxy2 (by omega)
                subst this
                cases htail2 with
                | nil =>
                  simp only [decodeRune, if_neg h1, if_neg h2, if_neg h3,
                    if_neg h4, if_pos h5, if_pos hc1, if_pos hc2]
                  simp
                | cons hxy3 htail3 =>
                  next x3 y3 a4 b4 =>
                  by_cases hc3 : 0x80 ≤ x3 ∧ x3 ≤ 0xBF
                  · have : y3 = x3 := lowerByteRel_high hxy3 (by omega)
                    subst this
                    simp only [decodeRune, if_neg h1, if_neg h2, if_neg h3,
                      if_neg h4, if_pos h5, if_pos hc1, if_pos hc2, if_pos hc3]
                    simp
                  · have hc3' : ¬ (0x80 ≤ y3 ∧ y3 ≤ 0xBF) := by
                      rw [lowerByteRel_cont hxy3 (by omega)]
                      exact hc3
                    simp only [decodeRune, if_neg h1, if_neg h2, if_neg h3,
                      if_neg h4, if_pos h5, if_pos hc1, if_pos hc2,
                      if_neg hc3, if_neg hc3']
                    simp
              · have hc2' : ¬ (0x80 ≤ y2 ∧ y2 ≤ 0xBF) := by
                  rw [lowerByteRel_cont hxy2 (by omega)]
                  exact hc2
                simp only [decodeRune, if_neg h1, if_neg h2, if_neg h3,
                  if_neg h4, if_pos h5, if_pos hc1, if_neg hc2, if_neg hc2']
                simp
          · have hc1' : ¬ ((if x = 0xF0 then 0x90 else 0x80) ≤ y1 ∧
                y1 ≤ (if x = 0xF4 then 0x8F else 0xBF)) := by
              rw [lowerByteRel_cont hxy1 ?_]
              · exact hc1
              · by_cases hF : x = 0xF0 <;> simp [hF]
            simp only [decodeRune, if_neg h1, if_neg h2, if_neg h3,
              if_neg h4, if_pos h5, if_neg hc1, if_neg hc1']
            simp
      · simp only [decodeRune, if_neg h1, if_neg h2, if_neg h3, if_neg h4,
          if_neg h5]
        simp

/-- `splitTextToWords`'s loop produces identical output on two
pointwise-`lowerByteRel` texts: alphanumeric runs are re-lower-cased
(erasing the difference) and all other emitted slices contain only
unchanged bytes. -/
theorem splitLoop_sim (a b : List Nat) (hsim : lowerSim a b) :
    ∀ fuel current (inAl : Bool) aStart,
      splitLoop a fuel current inAl aStart = splitLoop b fuel current inAl aStart := by
  have hlen : a.length = b.length := hsim.length_eq
  have hslice : ∀ i j, toLower (sliceBytes a i j) = toLower (sliceBytes b i j) := by
    intro i j
    apply toLower_eq_of_sim
    exact List.forall₂_drop i (List.forall₂_take j hsim)
  intro fuel
  induction fuel with
  | zero =>
    intro current inAl aStart
    rw [splitLoop, splitLoop, ← hlen]
    by_cases hcur : current < a.length
    · simp [hcur]
    · rw [if_neg hcur, if_neg hcur]
      by_cases hfl : (inAl = true) ∧ current ≠ 0
      · rw [if_pos hfl, if_pos hfl, hslice]
      · rw [if_neg hfl, if_neg hfl]
  | succ fuel ih =>
    intro current inAl aStart
    rw [splitLoop, splitLoop, ← hlen]
    by_cases hcur : current < a.length
    · rw [if_pos hcur, if_pos hcur]
      obtain ⟨hsz, hcls, htake⟩ := decodeRune_sim (List.forall₂_drop current hsim)
      dsimp only
      by_cases hclass : (decodeRune (a.drop current)).2 ≤ 2 ∧
          isAlnumRune (decodeRune (a.drop current)).1 = true
      · rw [if_pos hclass, if_pos (hcls.mpr hclass)]
        rw [hsz]
        cases inAl with
        | true =>
          rw [if_pos rfl, if_pos rfl]
          exact ih _ _ _
        | false =>
          rw [if_neg (by simp), if_neg (by simp)]
          exact ih _ _ _
      · rw [if_neg hclass, if_neg (fun hb => hclass (hcls.mp hb))]
        have hchar : sliceBytes b current (current + (decodeRune (a.drop current)).2)
            = sliceBytes a current (current + (decodeRune (a.drop current)).2) := by
          unfold sliceBytes
          rw [← List.take_drop, ← List.take_drop]
          exact htake hclass
        rw [hsz, hchar, ← ih]
        by_cases hfl : (inAl = true) ∧ current ≠ 0
        · rw [if_pos hfl, if_pos hfl, hslice]
        · rw [if_neg hfl, if_neg hfl]
    · rw [if_neg hcur, if_neg hcur]
      by_cases hfl : (inAl = true) ∧ current ≠ 0
      · rw [if_pos hfl, if_pos hfl, hslice]
      · rw [if_neg hfl, if_neg hfl]

theorem drop_eq_slice_append (a : List Nat) (i j : Nat) (h1 : i ≤ j)
    (h2 : j ≤ a.length) : a.drop i = sliceBytes a i j ++ a.drop j := by
  conv_lhs => rw [← List.take_append_drop j a]
  rw [List.drop_append_of_le_length (by simp; omega)]
  rfl

theorem flush_flatten_sim (a : List Nat) (current aStart : Nat) (inAl : Bool)
    (ha : aStart ≤ current) (hceq : current = a.length) :
    lowerSim (a.drop (if inAl then aStart else current))
      ((if (inAl = true) ∧ current ≠ 0 then
        [toLower (sliceBytes a aStart current)] else []).flatten) := by
  by_cases hfl : (inAl = true) ∧ current ≠ 0
  · rw [if_pos hfl]
    obtain ⟨hia, h0⟩ := hfl
    have hsl : sliceBytes a aStart current = a.drop aStart := by
      unfold sliceBytes
      rw [hceq, List.take_length]
    simp only [hia, if_true, List.flatten, List.append_nil, hsl]
    exact lowerSim_toLower _
  · rw [if_neg hfl]
    have hdrop : a.drop (if inAl then aStart else current) = [] := by
      by_cases hAl : inAl = true
      · have h0 : current = 0 := by
          by_contra hne
          exact hfl ⟨hAl, hne⟩
        rw [List.drop_eq_nil_iff, if_pos hAl]
        omega
      · rw [List.drop_eq_nil_iff, if_neg hAl]
        omega
    rw [hdrop]
    exact List.Forall₂.nil

theorem splitLoop_flatten_sim (a : List Nat) :
    ∀ fuel current (inAl : Bool) aStart, a.length ≤ fuel + current →
      aStart ≤ current → current ≤ a.length →
      lowerSim (a.drop (if inAl then aStart else current))
        ((splitLoop a fuel current inAl aStart).flatten) := by
  intro fuel
  induction fuel with
  | zero =>
    intro current inAl aStart hf ha hc
    have hnc : ¬ current < a.length := by omega
    rw [splitLoop, if_neg hnc]
    exact flush_flatten_sim a current aStart inAl ha (by omega)
  | succ fuel ih =>
    intro current inAl aStart hf ha hc
    by_cases hcur : current < a.length
    · rw [splitLoop, if_pos hcur]
      dsimp only
      have hs1 : 1 ≤ (decodeRune (a.drop current)).2 :=
        decodeRune_size_pos _ (by simp [List.drop_eq_nil_iff]; omega)
      have hs2 := decodeRune_size_le_sub a current
      by_cases hclass : (decodeRune (a.drop current)).2 ≤ 2 ∧
          isAlnumRune (decodeRune (a.drop current)).1 = true
      · rw [if_pos hclass]
        cases inAl with
        | true =>
          rw [if_pos rfl]
          have h2 := ih (current + (decodeRune (a.drop current)).2) true aStart
            (by omega) (by omega) (by omega)
          simp only [if_true] at h2 ⊢
          exact h2
        | false =>
          rw [if_neg (by simp)]
          have h2 := ih (current + (decodeRune (a.drop current)).2) true current
            (by omega) (by omega) (by omega)
          simp only [if_true] at h2
          simp only [Bool.false_eq_true, if_false]
          exact h2
      · rw [if_neg hclass]
        rw [List.flatten_append, List.flatten_cons]
        set s := (decodeRune (a.drop current)).2 with hsdef
        have hrec := ih (current + s) false aStart
          (by omega) (by omega) (by omega)
        simp only [Bool.false_eq_true, if_false] at hrec
        by_cases hfl : (inAl = true) ∧ current ≠ 0
        · rw [if_pos hfl]
          obtain ⟨hia, h0⟩ := hfl
          simp only [hia, if_true]
          rw [drop_eq_slice_append a aStart current (by omega) (by omega),
            drop_eq_slice_append a current (current + s) (by omega) (by omega)]
          simp only [List.flatten, List.append_nil]
          exact lowerSim_append (lowerSim_toLower _)
            (lowerSim_append (lowerSim_refl _) hrec)
        · rw [if_neg hfl]
          have hstart : (if inAl = true then aStart else current) = current := by
            by_cases hAl : inAl = true
            · have h0 : current = 0 := by
                by_contra hne
                exact hfl ⟨hAl, hne⟩
              rw [if_pos hAl]
              omega
            · rw [if_neg hAl]
          rw [hstart]
          rw [drop_eq_slice_append a current (current + s) (by omega) (by omega)]
          simp only [List.flatten_nil, List.nil_append]
          exact lowerSim_append (lowerSim_refl _) hrec
    · rw [splitLoop, if_neg hcur]
      exact flush_flatten_sim a current aStart inAl ha (by omega)

/-- The concatenation of a split's units is the input with alphanumeric
runs lower-cased: pointwise `lowerByteRel` to the input. -/
theorem lowerSim_flatten_split (a : List Nat) :
    lowerSim a ((splitTextToWords a).flatten) := by
  have h := splitLoop_flatten_sim a a.length 0 true 0 (by omega) (by omega)
    (by omega)
  simpa using h

theorem getD_set_self (js : List jumper) (i : Nat) (x : jumper)
    (h : i < js.length) : (js.set i x).getD i initJumper = x := by
  rw [List.getD_eq_getElem?_getD, List.getElem?_set_self] <;> simp [h]

theorem getD_set_ne (js : List jumper) (i k : Nat) (x : jumper)
    (h : i ≠ k) : (js.set i x).getD k initJumper = js.getD k initJumper := by
  rw [List.getD_eq_getElem?_getD, List.getElem?_set_ne h,
    ← List.getD_eq_getElem?_getD]

theorem updateJumper_token_cases (j : jumper) (b : Int) (t : Token) :
    (updateJumper j b t).token = some t ∨ updateJumper j b t = j := by
  unfold updateJumper
  dsimp only
  split
  · left
    rfl
  · right
    rfl

theorem updateJumper_isSome (j : jumper) (b : Int) (t : Token)
    (h : j.token = none → j.minDistance = 0) :
    ((updateJumper j b t).token).isSome = true := by
  unfold updateJumper
  dsimp only
  split
  · rfl
  · next hc =>
    push_neg at hc
    cases htok : j.token with
    | none => exact absurd (h htok) hc.1
    | some tok => simp [htok]

theorem writeCell_preserves (sm : Bool) (text : List UText) (js : List jumper)
    (loc : Nat) (b : Int) (tok : Token) (hOK : jumpersOK sm text js)
    (hTok : cellTokenOK sm text loc tok) (hloc : loc < text.length) :
    jumpersOK sm text (js.set loc (updateJumper (js.getD loc initJumper) b tok)) ∧
    (∀ i, isSomeAt js i →
      isSomeAt (js.set loc (updateJumper (js.getD loc initJumper) b tok)) i) ∧
    isSomeAt (js.set loc (updateJumper (js.getD loc initJumper) b tok)) loc := by
  obtain ⟨hlen, hcells⟩ := hOK
  have hloc' : loc < js.length := by omega
  have hset : ∀ k, (js.set loc (updateJumper (js.getD loc initJumper) b tok)).getD
      k initJumper = if loc = k then updateJumper (js.getD loc initJumper) b tok
        else js.getD k initJumper := by
    intro k
    by_cases hk : loc = k
    · subst hk
      rw [if_pos rfl]
      exact getD_set_self js loc _ hloc'
    · rw [if_neg hk]
      exact getD_set_ne js loc k _ hk
  refine ⟨⟨by simpa using hlen, ?_⟩, ?_, ?_⟩
  · intro i hi
    rw [List.length_set] at hi
    rw [hset i]
    by_cases hk : loc = i
    · subst hk
      rw [if_pos rfl]
      constructor
      · intro hnone
        rcases updateJumper_token_cases (js.getD loc initJumper) b tok with hcase | hcase
        · rw [hcase] at hnone
          exact absurd hnone (by simp)
        · rw [hcase] at hnone ⊢
          exact (hcells loc hi).1 hnone
      · intro tok' htok'
        rcases updateJumper_token_cases (js.getD loc initJumper) b tok with hcase | hcase
        · rw [hcase] at htok'
          cases htok'
          exact hTok
        · rw [hcase] at htok'
          exact (hcells loc hi).2 tok' htok'
    · rw [if_neg hk]
      exact hcells i hi
  · intro i hi
    unfold isSomeAt at hi ⊢
    rw [hset i]
    by_cases hk : loc = i
    · rw [if_pos hk]
      subst hk
      exact updateJumper_isSome _ b tok (hcells loc hloc').1
    · rw [if_neg hk]
      exact hi
  · unfold isSomeAt
    rw [hset loc, if_pos rfl]
    exact updateJumper_isSome _ b tok (hcells loc hloc').1

theorem writeOK_cellTokenOK (sm : Bool) (text : List UText) (current : Nat)
    (tok : Token) (hw : writeOK text current tok)
    (hguard : ¬(sm = true ∧ current = 0 ∧
      current + tok.text.length - 1 = text.length - 1)) :
    cellTokenOK sm text (current + tok.text.length - 1) tok := by
  obtain ⟨h1, h2, h3⟩ := hw
  refine ⟨h1, by omega, ?_, ?_⟩
  · have hL : current + tok.text.length - 1 + 1 = current + tok.text.length := by
      omega
    have hc : current + tok.text.length - tok.text.length = current := by omega
    rw [hL, hc, ← List.take_drop]
    exact h3
  · intro hsm hcon
    obtain ⟨hloc, hlen⟩ := hcon
    exact hguard ⟨hsm, by omega, by omega⟩

theorem applyTokenUpdate_preserves (sm : Bool) (text : List UText)
    (current : Nat) (b : Int) (js : List jumper) (tok : Token)
    (hOK : jumpersOK sm text js) (hw : writeOK text current tok) :
    jumpersOK sm text (applyTokenUpdate sm text current b js tok) ∧
    (∀ i, isSomeAt js i → isSomeAt (applyTokenUpdate sm text current b js tok) i) ∧
    (¬(sm = true ∧ current = 0 ∧ current + tok.text.length - 1 = text.length - 1) →
      isSomeAt (applyTokenUpdate sm text current b js tok)
        (current + tok.text.length - 1)) := by
  unfold applyTokenUpdate
  dsimp only
  by_cases hskip : sm = true ∧ current = 0 ∧
      current + tok.text.length - 1 = text.length - 1
  · rw [if_pos hskip]
    exact ⟨hOK, fun i hi => hi, fun hn => absurd hskip hn⟩
  · rw [if_neg hskip]
    have hloc : current + tok.text.length - 1 < text.length := by
      obtain ⟨h1, h2, _⟩ := hw
      omega
    have h := writeCell_preserves sm text js _ b tok hOK
      (writeOK_cellTokenOK sm text current tok hw hskip) hloc
    exact ⟨h.1, h.2.1, fun _ => h.2.2⟩

theorem foldTokens_preserves (sm : Bool) (text : List UText) (current : Nat)
    (b : Int) :
    ∀ (toks : List Token) (js : List jumper), jumpersOK sm text js →
      (∀ t ∈ toks, writeOK text current t) →
      jumpersOK sm text (toks.foldl (applyTokenUpdate sm text current b) js) ∧
      (∀ i, isSomeAt js i →
        isSomeAt (toks.foldl (applyTokenUpdate sm text current b) js) i) := by
  intro toks
  induction toks with
  | nil => exact fun js hOK _ => ⟨hOK, fun i hi => hi⟩
  | cons t ts ih =>
    intro js hOK hw
    rw [List.foldl_cons]
    have hstep := applyTokenUpdate_preserves sm text current b js t hOK
      (hw t (List.mem_cons_self t ts))
    have hrest := ih (applyTokenUpdate sm text current b js t) hstep.1
      (fun t' ht' => hw t' (List.mem_cons_of_mem t ht'))
    exact ⟨hrest.1, fun i hi => hrest.2 i (hstep.2.1 i hi)⟩

theorem foldTokens_hits (sm : Bool) (text : List UText) (current : Nat)
    (b : Int) :
    ∀ (toks : List Token) (js : List jumper) (tok : Token),
      jumpersOK sm text js → (∀ t ∈ toks, writeOK text current t) →
      tok ∈ toks →
      ¬(sm = true ∧ current = 0 ∧
        current + tok.text.length - 1 = text.length - 1) →
      isSomeAt (toks.foldl (applyTokenUpdate sm text current b) js)
        (current + tok.text.length - 1) := by
  intro toks
  induction toks with
  | nil =>
    intro js tok _ _ hmem
    exact absurd hmem (List.not_mem_nil tok)
  | cons t ts ih =>
    intro js tok hOK hw hmem hguard
    rw [List.foldl_cons]
    have hstep := applyTokenUpdate_preserves sm text current b js t hOK
      (hw t (List.mem_cons_self t ts))
    rcases List.mem_cons.mp hmem with rfl | hmem'
    · have hsome := hstep.2.2 hguard
      have hrest := foldTokens_preserves sm text current b ts
        (applyTokenUpdate sm text current b js tok) hstep.1
        (fun t' ht' => hw t' (List.mem_cons_of_mem tok ht'))
      exact hrest.2 _ hsome
    · exact ih (applyTokenUpdate sm text current b js t) tok hstep.1
        (fun t' ht' => hw t' (List.mem_cons_of_mem t ht')) hmem' hguard

theorem lookupTokens_mem {dict : Dictionary} {words : List UText} {tok : Token}
    (h : tok ∈ lookupTokens dict words) :
    tok ∈ dict.tokens ∧ tok.text <+: words := by
  unfold lookupTokens at h
  rw [List.mem_flatMap] at h
  obtain ⟨l, _, hf⟩ := h
  rw [List.mem_filter] at hf
  obtain ⟨hmem, hdec⟩ := hf
  simp only [decide_eq_true_eq] at hdec
  exact ⟨hmem, hdec.2⟩

theorem lookupTokens_complete {dict : Dictionary} {words : List UText}
    {tok : Token} (hmem : tok ∈ dict.tokens)
    (hlen : tok.text.length ≤ dict.maxTokenLength) (hpre : tok.text <+: words) :
    tok ∈ lookupTokens dict words := by
  unfold lookupTokens
  rw [List.mem_flatMap]
  refine ⟨tok.text.length, ?_, ?_⟩
  · rw [List.mem_range]
    omega
  · rw [List.mem_filter]
    exact ⟨hmem, by simp [hpre]⟩

theorem flatRange_head_min (g : Nat → List Token)
    (hg : ∀ l t, t ∈ g l → t.text.length = l) :
    ∀ (n : Nat) (tok : Token) (rest : List Token),
      (List.range n).flatMap g = tok :: rest →
      ∀ t ∈ (List.range n).flatMap g, tok.text.length ≤ t.text.length := by
  intro n
  induction n with
  | zero =>
    intro tok rest heq
    simp at heq
  | succ n ih =>
    intro tok rest heq t ht
    rw [List.range_succ, List.flatMap_append] at heq ht
    cases hsplit : (List.range n).flatMap g with
    | nil =>
      rw [hsplit, List.nil_append] at heq ht
      have ht' : t ∈ g n := by simpa using ht
      have htok : tok ∈ g n := by
        have hmem : tok ∈ [n].flatMap g := by
          rw [heq]
          exact List.mem_cons_self _ _
        simpa using hmem
      rw [hg n t ht', hg n tok htok]
    | cons tok' rest' =>
      rw [hsplit] at heq ht
      rw [List.cons_append] at heq
      injection heq with heq1 heq2
      have heq1' : tok = tok' := heq1.symm
      subst heq1'
      rcases List.mem_append.mp ht with h1 | h1
      · exact ih tok rest' hsplit t (by rw [hsplit]; exact h1)
      · have ht' : t ∈ g n := by simpa using h1
        have htok' : tok ∈ (List.range n).flatMap g := by
          rw [hsplit]
          exact List.mem_cons_self _ _
        rw [List.mem_flatMap] at htok'
        obtain ⟨l, hl, hgl⟩ := htok'
        rw [List.mem_range] at hl
        rw [hg n t ht', hg l tok hgl]
        omega

theorem lookupTokens_head_min {dict : Dictionary} {words : List UText}
    {tok : Token} {rest : List Token}
    (heq : lookupTokens dict words = tok :: rest) :
    ∀ t ∈ lookupTokens dict words, tok.text.length ≤ t.text.length := by
  have hg : ∀ l t, t ∈ dict.tokens.filter
      (fun t => decide (t.text.length = l ∧ t.text <+: words)) →
      t.text.length = l := by
    intro l t ht
    have := (List.mem_filter.mp ht).2
    simp only [decide_eq_true_eq] at this
    exact this.1
  exact flatRange_head_min _ hg (dict.maxTokenLength + 1) tok rest heq

theorem slice_single (text : List UText) (current : Nat)
    (hc : current < text.length) :
    (text.take (current + 1)).drop current = [text.getD current []] := by
  have h1 : (text.take (current + 1)).drop current = (text.drop current).take 1 :=
    (List.take_drop current 1 text).symm
  rw [h1, List.drop_eq_getElem_cons hc, List.getD_eq_getElem text [] hc]
  rfl

theorem processPosition_preserves (dict : Dictionary) (sm : Bool)
    (text : List UText) (hd : ∀ t ∈ dict.tokens, t.text ≠ [])
    (hs2 : sm = true → 2 ≤ text.length) (js : List jumper) (current : Nat)
    (hc : current < text.length) (hOK : jumpersOK sm text js) :
    jumpersOK sm text (processPosition dict sm text js current) ∧
    (∀ i, isSomeAt js i → isSomeAt (processPosition dict sm text js current) i) ∧
    isSomeAt (processPosition dict sm text js current) current := by
  unfold processPosition
  dsimp only
  set b := (if current = 0 then (0:Int)
    else (js.getD (current - 1) initJumper).minDistance) with hbdef
  set toks := lookupTokens dict ((text.drop current).take dict.maxTokenLength)
    with htoksdef
  have hw : ∀ t ∈ toks, writeOK text current t := by
    intro t ht
    rw [htoksdef] at ht
    obtain ⟨hmem, hpre⟩ := lookupTokens_mem ht
    have hne := hd t hmem
    have hlen1 : 1 ≤ t.text.length := by
      have := List.length_pos.mpr hne
      omega
    have hple : t.text.length ≤
        ((text.drop current).take dict.maxTokenLength).length := hpre.length_le
    have hslice : ((text.drop current).take dict.maxTokenLength).length =
        min dict.maxTokenLength (text.length - current) := by simp
    have hmin : min t.text.length dict.maxTokenLength = t.text.length := by
      omega
    refine ⟨hlen1, by omega, ?_⟩
    calc t.text
        = ((text.drop current).take dict.maxTokenLength).take t.text.length :=
          List.prefix_iff_eq_take.mp hpre
      _ = (text.drop current).take (min t.text.length dict.maxTokenLength) :=
          List.take_take _ _ _
      _ = (text.drop current).take t.text.length := by rw [hmin]
  have hfold := foldTokens_preserves sm text current b toks js hOK hw
  by_cases hps : pseudoNeeded toks = true
  · rw [if_pos hps]
    have hpw : cellTokenOK sm text current
        ⟨[text.getD current []], 1, 32, [120]⟩ := by
      refine ⟨by simp, by simp, ?_, ?_⟩
      · show [text.getD current []] =
          (text.take (current + 1)).drop (current + 1 - 1)
        have h11 : current + 1 - 1 = current := by omega
        rw [h11]
        exact (slice_single text current hc).symm
      · intro hsm hcon
        obtain ⟨h1, h2⟩ := hcon
        have := hs2 hsm
        simp at h2
        omega
    have hw2 := writeCell_preserves sm text _ current b _ hfold.1 hpw hc
    exact ⟨hw2.1, fun i hi => hw2.2.1 i (hfold.2 i hi), hw2.2.2⟩
  · rw [if_neg hps]
    unfold pseudoNeeded at hps
    simp only [decide_eq_true_eq] at hps
    push_neg at hps
    obtain ⟨hlen0, hhead⟩ := hps
    cases htk : toks with
    | nil =>
      rw [htk] at hlen0
      simp at hlen0
    | cons t0 ts =>
      have ht0 : t0 ∈ toks := by
        rw [htk]
        exact List.mem_cons_self _ _
      have hw0 := hw t0 ht0
      have hhd : toks.headD default = t0 := by
        rw [htk]
        rfl
      rw [hhd] at hhead
      have hlen1 : t0.text.length = 1 := by
        have := hw0.1
        omega
      have hguard : ¬(sm = true ∧ current = 0 ∧
          current + t0.text.length - 1 = text.length - 1) := by
        rintro ⟨hsm, h0, hL⟩
        have := hs2 hsm
        rw [hlen1] at hL
        omega
      have hhit := foldTokens_hits sm text current b toks js t0 hOK hw ht0 hguard
      have hloc : current + t0.text.length - 1 = current := by omega
      rw [hloc] at hhit
      rw [← htk]
      exact ⟨hfold.1, hfold.2, hhit⟩

theorem forwardPass_ok (dict : Dictionary) (sm : Bool) (text : List UText)
    (hd : ∀ t ∈ dict.tokens, t.text ≠ [])
    (hs2 : sm = true → 2 ≤ text.length) :
    jumpersOK sm text (forwardPass dict sm text) ∧
    progressOK (forwardPass dict sm text) text.length := by
  have hinit : jumpersOK sm text (List.replicate text.length initJumper) := by
    refine ⟨by simp, ?_⟩
    intro i hi
    rw [List.length_replicate] at hi
    have hrep : (List.replicate text.length initJumper).getD i initJumper =
        initJumper := by
      simp [List.getD_eq_getElem?_getD, List.getElem?_replicate, hi]
    rw [hrep]
    exact ⟨fun _ => rfl, fun tok htok => by simp [initJumper] at htok⟩
  suffices h : ∀ n, n ≤ text.length →
      jumpersOK sm text ((List.range n).foldl (processPosition dict sm text)
        (List.replicate text.length initJumper)) ∧
      progressOK ((List.range n).foldl (processPosition dict sm text)
        (List.replicate text.length initJumper)) n by
    exact h text.length (le_refl _)
  intro n
  induction n with
  | zero =>
    intro _
    exact ⟨hinit, fun i hi => absurd hi (by omega)⟩
  | succ n ih =>
    intro hn
    have hprev := ih (by omega)
    rw [List.range_succ, List.foldl_append, List.foldl_cons, List.foldl_nil]
    have hstep := processPosition_preserves dict sm text hd hs2 _ n (by omega)
      hprev.1
    refine ⟨hstep.1, ?_⟩
    intro i hi
    by_cases hin : i = n
    · subst hin
      exact hstep.2.2
    · exact hstep.2.1 i (hprev.2 i (by omega))

theorem backScan_ok (sm : Bool) (text : List UText) (js : List jumper)
    (hOK : jumpersOK sm text js) (hprog : progressOK js text.length) :
    ∀ fuel n, n ≤ fuel → n ≤ text.length →
      ∃ toks : List Token, backTokensScan js fuel n = some toks ∧
        numSegScan js fuel n = some toks.length ∧
        toks.flatMap Token.text = text.take n ∧
        (n ≠ 0 → toks ≠ []) ∧
        (n ≠ 0 → ∃ tok rest, toks = rest ++ [tok] ∧
          (js.getD (n - 1) initJumper).token = some tok ∧
          (n - tok.text.length ≠ 0 → rest ≠ [])) := by
  intro fuel
  induction fuel with
  | zero =>
    intro n hn _
    have h0 : n = 0 := by omega
    subst h0
    exact ⟨[], by rw [backTokensScan]; simp, by rw [numSegScan]; simp,
      by simp, by simp, by simp⟩
  | succ fuel ih =>
    intro n hn hnt
    by_cases hn0 : n = 0
    · subst hn0
      exact ⟨[], by rw [backTokensScan]; simp, by rw [numSegScan]; simp,
        by simp, by simp, by simp⟩
    · have hn1 : n - 1 < text.length := by omega
      have hsome := hprog (n - 1) hn1
      unfold isSomeAt at hsome
      cases htok : (js.getD (n - 1) initJumper).token with
      | none =>
        rw [htok] at hsome
        simp at hsome
      | some tok =>
        have hjs : n - 1 < js.length := by
          rw [hOK.1]
          omega
        have hcell := (hOK.2 (n - 1) hjs).2 tok htok
        obtain ⟨hl1, hl2, hslice, _⟩ := hcell
        obtain ⟨toks', hbt, hns, hflat, hne, _⟩ :=
          ih (n - tok.text.length) (by omega) (by omega)
        refine ⟨toks' ++ [tok], ?_, ?_, ?_, ?_, ?_⟩
        · rw [backTokensScan, if_neg hn0, htok]
          dsimp only
          rw [hbt]
          rfl
        · rw [numSegScan, if_neg hn0, htok]
          dsimp only
          rw [hns]
          simp
        · rw [List.flatMap_append, hflat]
          simp only [List.flatMap_cons, List.flatMap_nil, List.append_nil]
          obtain ⟨L, hL⟩ : ∃ L, tok.text.length = L := ⟨_, rfl⟩
          rw [hL] at hslice hl2 ⊢
          have hn' : n - 1 + 1 = n := Nat.succ_pred_eq_of_pos
            (Nat.pos_of_ne_zero hn0)
          rw [hn'] at hslice
          rw [hslice]
          have h1 : text.take (n - L) = (text.take n).take (n - L) := by
            rw [List.take_take, Nat.min_eq_left (by omega : n - L ≤ n)]
          rw [h1, List.take_append_drop]
        · intro _
          simp
        · intro _
          exact ⟨tok, toks', rfl, rfl, hne⟩

theorem assignBytes_length (toks : List Token) :
    ∀ p, (assignBytes toks p).length = toks.length := by
  induction toks with
  | nil => intro p; rfl
  | cons t ts ih =>
    intro p
    simp [assignBytes, ih]

theorem assignBytes_getD (toks : List Token) :
    ∀ p i, i < toks.length →
      (assignBytes toks p).getD i default =
        ⟨p + sumBytes (toks.take i), p + sumBytes (toks.take (i + 1)),
          toks.getD i default⟩ := by
  induction toks with
  | nil =>
    intro p i h
    simp at h
  | cons t ts ih =>
    intro p i h
    cases i with
    | zero =>
      simp [assignBytes, sumBytes, List.getD_cons_zero]
    | succ k =>
      have hstep : assignBytes (t :: ts) p =
          ⟨p, p + textSliceByteLength t.text, t⟩ ::
            assignBytes ts (p + textSliceByteLength t.text) := rfl
      rw [hstep, List.getD_cons_succ,
        ih (p + textSliceByteLength t.text) k (by simpa using h)]
      simp [sumBytes, List.getD_cons_succ]
      constructor <;> omega

theorem sumBytes_eq_flatMap (toks : List Token) :
    sumBytes toks = ((toks.flatMap Token.text).map List.length).sum := by
  induction toks with
  | nil => rfl
  | cons t ts ih =>
    simp only [sumBytes, List.map_cons, List.sum_cons, List.flatMap_cons,
      List.map_append, List.sum_append] at ih ⊢
    rw [ih]
    rfl

theorem segmentWords_ok (dict : Dictionary) (text : List UText) (sm : Bool)
    (hd : ∀ t ∈ dict.tokens, t.text ≠ [])
    (hne : text ≠ []) (hs2 : sm = true → 2 ≤ text.length) :
    ∃ toks : List Token, toks ≠ [] ∧
      segmentWords dict text sm = some (assignBytes toks 0) ∧
      toks.flatMap Token.text = text ∧
      (sm = true → 2 ≤ toks.length) := by
  obtain ⟨hOK, hprog⟩ := forwardPass_ok dict sm text hd hs2
  obtain ⟨toks, hbt, hns, hflat, hnil, hlast⟩ :=
    backScan_ok sm text _ hOK hprog text.length text.length (le_refl _)
      (le_refl _)
  have hlen0 : text.length ≠ 0 := by
    intro h
    exact hne (List.length_eq_zero.mp h)
  refine ⟨toks, hnil hlen0, ?_, ?_, ?_⟩
  · unfold segmentWords
    have hguard : ¬(sm = true ∧ text.length = 1) := by
      rintro ⟨hsm, h1⟩
      have := hs2 hsm
      omega
    rw [if_neg hguard]
    dsimp only
    rw [hbt]
    rfl
  · rw [hflat, List.take_length]
  · intro hsm
    obtain ⟨tok, rest, heq, htok, hrest⟩ := hlast hlen0
    have hjs : text.length - 1 < (forwardPass dict sm text).length := by
      rw [hOK.1]
      omega
    have hcell := (hOK.2 (text.length - 1) hjs).2 tok htok
    obtain ⟨h1, h2, _, hclause⟩ := hcell
    have h22 := hs2 hsm
    have hlt : tok.text.length < text.length := by
      have hne2 := hclause hsm
      by_contra hge
      push_neg at hge
      exact hne2 ⟨rfl, by omega⟩
    have hr : rest ≠ [] := hrest (by omega)
    rw [heq]
    have hrp := List.length_pos.mpr hr
    rw [List.length_append]
    simp
    omega

/-- C9: segmenting the empty input returns the empty segment sequence in
both modes, and search (recall) mode on any input that splits to exactly
one unit also returns the empty sequence. -/
theorem c9_empty_and_single_unit (dict : Dictionary) :
    (∀ sm : Bool, (Segmenter.mk dict).internalSegment [] sm = some []) ∧
    (∀ bytes : List Nat, (splitTextToWords bytes).length = 1 →
      (Segmenter.mk dict).InternalSegment bytes true = some []) := by
  constructor
  · intro sm
    rfl
  · intro bytes hone
    unfold Segmenter.InternalSegment Segmenter.internalSegment
    by_cases hb : bytes.length = 0
    · rw [if_pos hb]
    · rw [if_neg hb]
      unfold segmentWords
      rw [if_pos ⟨rfl, hone⟩]

theorem c9_witness :
    (Segmenter.mk NewDictionary).internalSegment [] false = some [] ∧
    (Segmenter.mk NewDictionary).InternalSegment [97] true = some [] :=
  ⟨(c9_empty_and_single_unit NewDictionary).1 false,
    (c9_empty_and_single_unit NewDictionary).2 [97] (by decide)⟩

/-- C10: for every nonempty unit sequence reaching the dynamic program
(plain mode, or search mode with at least two units) over a dictionary of
nonempty-text tokens, every jumper cell ends the forward pass holding a
token of unit length at least 1, and both backward scans succeed (no nil
dereference, no divergence) and count the same number of segments. -/
theorem c10_forward_pass_safety (dict : Dictionary) (text : List UText)
    (sm : Bool) (hd : ∀ t ∈ dict.tokens, t.text ≠ [])
    (hne : text ≠ []) (hs2 : sm = true → 2 ≤ text.length) :
    (∀ i, i < text.length → ∃ tok : Token,
      ((forwardPass dict sm text).getD i initJumper).token = some tok ∧
      1 ≤ tok.text.length) ∧
    ∃ toks : List Token,
      backTokensScan (forwardPass dict sm text) text.length text.length =
        some toks ∧
      numSegScan (forwardPass dict sm text) text.length text.length =
        some toks.length := by
  obtain ⟨hOK, hprog⟩ := forwardPass_ok dict sm text hd hs2
  constructor
  · intro i hi
    have hsome := hprog i hi
    unfold isSomeAt at hsome
    cases htok : ((forwardPass dict sm text).getD i initJumper).token with
    | none =>
      rw [htok] at hsome
      simp at hsome
    | some tok =>
      have hjs : i < (forwardPass dict sm text).length := by
        rw [hOK.1]
        omega
      exact ⟨tok, rfl, ((hOK.2 i hjs).2 tok htok).1⟩
  · obtain ⟨toks, hbt, hns, _, _, _⟩ :=
      backScan_ok sm text _ hOK hprog text.length text.length (le_refl _)
        (le_refl _)
    exact ⟨toks, hbt, hns⟩

theorem c10_witness :
    (∀ i, i < ([[97], [33]] : List UText).length → ∃ tok : Token,
      ((forwardPass NewDictionary false [[97], [33]]).getD i
        initJumper).token = some tok ∧ 1 ≤ tok.text.length) ∧
    ∃ toks : List Token,
      backTokensScan (forwardPass NewDictionary false [[97], [33]]) 2 2 =
        some toks ∧
      numSegScan (forwardPass NewDictionary false [[97], [33]]) 2 2 =
        some toks.length :=
  c10_forward_pass_safety NewDictionary [[97], [33]] false
    (by intro t ht; simp [NewDictionary] at ht) (by decide) (by decide)

/-- C1: for every nonempty byte input (plain mode, or search mode when the
input does not split into exactly one unit), segmentation succeeds and the
returned segments tile the input exactly: the first starts at byte 0, each
segment ends where the next starts, and the last ends at the input's byte
length; moreover the public `Segment` method is plain-mode
`InternalSegment`. -/
theorem c1_segment_coverage (dict : Dictionary) (bytes : List Nat) (sm : Bool)
    (hd : ∀ t ∈ dict.tokens, t.text ≠ [])
    (hne : bytes ≠ [])
    (hmode : sm = false ∨ (splitTextToWords bytes).length ≠ 1) :
    (∃ segs : List Segment,
      (Segmenter.mk dict).InternalSegment bytes sm = some segs ∧ segs ≠ [] ∧
      (segs.getD 0 default).start = 0 ∧
      (∀ k, k + 1 < segs.length →
        (segs.getD k default).endPos = (segs.getD (k + 1) default).start) ∧
      (segs.getD (segs.length - 1) default).endPos = bytes.length) ∧
    (Segmenter.mk dict).Segment bytes =
      (Segmenter.mk dict).InternalSegment bytes false := by
  have htext := splitTextToWords_ne_nil bytes hne
  have hs2 : sm = true → 2 ≤ (splitTextToWords bytes).length := by
    intro hsm
    rcases hmode with h | h
    · rw [h] at hsm
      cases hsm
    · have := List.length_pos.mpr htext
      omega
  obtain ⟨toks, hnil, hseg, hflat, _⟩ :=
    segmentWords_ok dict (splitTextToWords bytes) sm hd htext hs2
  have htoksp : 0 < toks.length := List.length_pos.mpr hnil
  constructor
  · refine ⟨assignBytes toks 0, ?_, ?_, ?_, ?_, ?_⟩
    · unfold Segmenter.InternalSegment Segmenter.internalSegment
      have hb : ¬ bytes.length = 0 := fun h => hne (List.length_eq_zero.mp h)
      rw [if_neg hb]
      exact hseg
    · have hl := assignBytes_length toks 0
      intro hcon
      rw [hcon] at hl
      simp at hl
      omega
    · rw [assignBytes_getD toks 0 0 htoksp]
      simp [sumBytes]
    · intro k hk
      rw [assignBytes_length] at hk
      rw [assignBytes_getD toks 0 k (by omega),
        assignBytes_getD toks 0 (k + 1) (by omega)]
    · rw [assignBytes_length]
      rw [assignBytes_getD toks 0 (toks.length - 1) (by omega)]
      have h1 : toks.length - 1 + 1 = toks.length := by omega
      rw [h1, List.take_length]
      show 0 + sumBytes toks = bytes.length
      rw [sumBytes_eq_flatMap, hflat, splitTextToWords_sum_length]
      omega
  · rfl

theorem c1_witness :
    (∃ segs : List Segment,
      (Segmenter.mk NewDictionary).InternalSegment [97, 33] false = some segs ∧
      segs ≠ [] ∧ (segs.getD 0 default).start = 0 ∧
      (∀ k, k + 1 < segs.length →
        (segs.getD k default).endPos = (segs.getD (k + 1) default).start) ∧
      (segs.getD (segs.length - 1) default).endPos = ([97, 33] : List Nat).length) ∧
    (Segmenter.mk NewDictionary).Segment [97, 33] =
      (Segmenter.mk NewDictionary).InternalSegment [97, 33] false :=
  c1_segment_coverage NewDictionary [97, 33] false
    (by intro t ht; simp [NewDictionary] at ht) (by decide) (Or.inl rfl)

/-- C4: in search (recall) mode a multi-unit input is never returned as
one whole-input segment — over any dictionary of nonempty-text tokens the
result has at least two segments — while plain mode, on a concrete
dictionary containing the whole input as a token, does return the single
whole-input segment (the skip happens only in search mode). -/
theorem c4_whole_input_suppressed (dict : Dictionary) (text : List UText)
    (hd : ∀ t ∈ dict.tokens, t.text ≠ [])
    (h2 : 2 ≤ text.length) :
    (∃ segs : List Segment, segmentWords dict text true = some segs ∧
      2 ≤ segs.length) ∧
    segmentWords sampleWholeDict [[33], [63]] false =
      some [⟨0, 2, sampleWholeToken⟩] := by
  constructor
  · have hne : text ≠ [] := by
      intro h
      rw [h] at h2
      simp at h2
    obtain ⟨toks, _, hseg, _, hcount⟩ :=
      segmentWords_ok dict text true hd hne (fun _ => h2)
    refine ⟨assignBytes toks 0, hseg, ?_⟩
    rw [assignBytes_length]
    exact hcount rfl
  · decide

theorem c4_witness :
    (∃ segs : List Segment,
      segmentWords NewDictionary [[97], [33]] true = some segs ∧
      2 ≤ segs.length) ∧
    segmentWords sampleWholeDict [[33], [63]] false =
      some [⟨0, 2, sampleWholeToken⟩] :=
  c4_whole_input_suppressed NewDictionary [[97], [33]]
    (by intro t ht; simp [NewDictionary] at ht) (by decide)

/-- C5: `splitTextToWords` is total on every byte input (it is a Lean
function), the concatenated byte lengths of its units sum to the input's
byte length, and no unit boundary falls strictly inside a decoded code
point (every unit boundary offset is a `decodeRune` boundary). -/
theorem c5_split_length_and_boundaries (text : List Nat) :
    ((splitTextToWords text).map List.length).sum = text.length ∧
    ∀ q ∈ unitOffsets (splitTextToWords text) 0, IsBoundary text q :=
  ⟨splitTextToWords_sum_length text, splitTextToWords_offsets text⟩

theorem c5_witness :
    ((splitTextToWords [97, 228, 184, 173]).map List.length).sum =
      ([97, 228, 184, 173] : List Nat).length ∧
    IsBoundary [97, 228, 184, 173] 1 :=
  ⟨(c5_split_length_and_boundaries [97, 228, 184, 173]).1,
    (c5_split_length_and_boundaries [97, 228, 184, 173]).2 1 (by decide)⟩

/-- C8: unit splitting is idempotent — re-splitting the concatenation of a
split's own unit texts reproduces the same unit sequence. -/
theorem c8_split_idempotent (text : List Nat) :
    splitTextToWords ((splitTextToWords text).flatten) = splitTextToWords text := by
  have hsim := lowerSim_flatten_split text
  have hlen : text.length = ((splitTextToWords text).flatten).length :=
    hsim.length_eq
  calc splitTextToWords ((splitTextToWords text).flatten)
      = splitLoop ((splitTextToWords text).flatten)
          ((splitTextToWords text).flatten).length 0 true 0 := rfl
    _ = splitLoop ((splitTextToWords text).flatten) text.length 0 true 0 := by
        rw [← hlen]
    _ = splitLoop text text.length 0 true 0 :=
        (splitLoop_sim text ((splitTextToWords text).flatten) hsim
          text.length 0 true 0).symm
    _ = splitTextToWords text := rfl

/-- C2 (counterexample): with the `minDistance == 0` sentinel, a cell that
was already written with cost exactly 0 is overwritten by a later
candidate that is neither the first update nor strictly smaller — so "the
candidate is written iff it is the first update at the cell or strictly
smaller than the recorded cost", as the claim states it, is false. -/
theorem c2_sentinel_counterexample :
    (updateJumper (updateJumper initJumper 0 ⟨[[97]], 1, 0, []⟩) 0
        ⟨[[98]], 1, 5, []⟩).token = some ⟨[[98]], 1, 5, []⟩ ∧
    (updateJumper initJumper 0 ⟨[[97]], 1, 0, []⟩).token =
      some ⟨[[97]], 1, 0, []⟩ ∧
    ¬ ((0 : Int) + (⟨[[98]], 1, 5, []⟩ : Token).distance <
        (updateJumper initJumper 0 ⟨[[97]], 1, 0, []⟩).minDistance) := by
  decide

/-- C2 (amended): a candidate is written into the cell iff the cell's
recorded `minDistance` is zero — which covers the never-updated initial
state but also a previously recorded cost of exactly zero — or the
candidate cost is strictly smaller than the recorded cost; on a tie with a
nonzero recorded cost the earlier-recorded term is kept. -/
theorem c2_update_rule (j : jumper) (b : Int) (t : Token) :
    (updateJumper initJumper b t = ⟨b + t.distance, some t⟩) ∧
    ((j.minDistance = 0 ∨ b + t.distance < j.minDistance) →
      updateJumper j b t = ⟨b + t.distance, some t⟩) ∧
    (j.minDistance ≠ 0 → ¬ b + t.distance < j.minDistance →
      updateJumper j b t = j) := by
  refine ⟨?_, ?_, ?_⟩
  · unfold updateJumper
    dsimp only
    rw [if_pos (Or.inl (by rfl))]
  · intro h
    unfold updateJumper
    dsimp only
    rw [if_pos h]
  · intro h1 h2
    unfold updateJumper
    dsimp only
    have hcond : ¬ (j.minDistance = 0 ∨ j.minDistance > b + t.distance) := by
      rintro (hc | hc)
      · exact h1 hc
      · exact h2 hc
    rw [if_neg hcond]

theorem c2_update_rule_witness :
    updateJumper ⟨3, some ⟨[[97]], 1, 0, []⟩⟩ 0 ⟨[[98]], 1, 5, []⟩ =
      ⟨3, some ⟨[[97]], 1, 0, []⟩⟩ :=
  (c2_update_rule ⟨3, some ⟨[[97]], 1, 0, []⟩⟩ 0 ⟨[[98]], 1, 5, []⟩).2.2
    (by decide) (by decide)

/-- C3: the forward pass injects the synthetic single-unit pseudo-term at
position `i` (guard `pseudoNeeded`) exactly when no single-unit dictionary
token matches at `i`; in particular a real single-unit match always
prevents the injection. -/
theorem c3_pseudo_token_guard (dict : Dictionary) (text : List UText) (i : Nat)
    (hd : ∀ t ∈ dict.tokens,
      1 ≤ t.text.length ∧ t.text.length ≤ dict.maxTokenLength) :
    pseudoNeeded (lookupTokens dict ((text.drop i).take dict.maxTokenLength)) =
        true ↔
      ¬ ∃ t ∈ dict.tokens, t.text.length = 1 ∧ t.text <+: text.drop i := by
  constructor
  · rintro hps ⟨t, hmem, hlen, hpre⟩
    have h1le : 1 ≤ dict.maxTokenLength := by
      have := (hd t hmem).2
      omega
    have hteq : t.text = (text.drop i).take 1 := by
      have h := List.prefix_iff_eq_take.mp hpre
      rw [hlen] at h
      exact h
    have hpre2 : t.text <+: (text.drop i).take dict.maxTokenLength := by
      have ht1 : t.text =
          ((text.drop i).take dict.maxTokenLength).take 1 := by
        rw [List.take_take, Nat.min_eq_left h1le]
        exact hteq
      rw [ht1]
      exact List.take_prefix _ _
    have hin : t ∈ lookupTokens dict ((text.drop i).take dict.maxTokenLength) :=
      lookupTokens_complete hmem (hd t hmem).2 hpre2
    unfold pseudoNeeded at hps
    simp only [decide_eq_true_eq] at hps
    rcases hps with h0 | h1
    · rw [List.length_eq_zero.mp h0] at hin
      simp at hin
    · cases hlk : lookupTokens dict ((text.drop i).take dict.maxTokenLength) with
      | nil =>
        rw [hlk] at hin
        simp at hin
      | cons tk rest =>
        have hmin := lookupTokens_head_min hlk t hin
        rw [hlk] at h1
        have hhd : (tk :: rest).headD default = tk := rfl
        rw [hhd] at h1
        omega
  · intro hno
    unfold pseudoNeeded
    simp only [decide_eq_true_eq]
    by_contra hcon
    push_neg at hcon
    obtain ⟨hne0, hle⟩ := hcon
    cases hlk : lookupTokens dict ((text.drop i).take dict.maxTokenLength) with
    | nil =>
      rw [hlk] at hne0
      simp at hne0
    | cons tk rest =>
      rw [hlk] at hle
      have hhd : (tk :: rest).headD default = tk := rfl
      rw [hhd] at hle
      have htk : tk ∈ lookupTokens dict
          ((text.drop i).take dict.maxTokenLength) := by
        rw [hlk]
        exact List.mem_cons_self _ _
      obtain ⟨hmem, hpre⟩ := lookupTokens_mem htk
      have h1 := (hd tk hmem).1
      exact hno ⟨tk, hmem, by omega, hpre.trans (List.take_prefix _ _)⟩

theorem c3_witness :
    pseudoNeeded (lookupTokens sampleWholeDict
      ((([[33], [63]] : List UText).drop 0).take
        sampleWholeDict.maxTokenLength)) = true ↔
      ¬ ∃ t ∈ sampleWholeDict.tokens, t.text.length = 1 ∧
        t.text <+: ([[33], [63]] : List UText).drop 0 :=
  c3_pseudo_token_guard sampleWholeDict [[33], [63]] 0 (by decide)

/-- C6: `LoadDictionary` never fails on bad records — a record line leaves
the dictionary unchanged exactly when it has fewer than two fields, its
second field does not parse as an integer, or the parsed frequency is
below the minimum threshold 2; every other record is stored as a token
with its parsed frequency and its third field as pos tag (empty when
absent), accumulating the dictionary totals. -/
theorem c6_record_filter (dict : Dictionary) (line : List Nat) :
    (processLine dict line = dict ↔
      ((goFields line).length < 2 ∨
        atoiBytes ((goFields line).getD 1 []) = none ∨
        ∃ f : Int, atoiBytes ((goFields line).getD 1 []) = some f ∧ f < 2)) ∧
    (∀ f : Int, 2 ≤ (goFields line).length →
      atoiBytes ((goFields line).getD 1 []) = some f → 2 ≤ f →
      (processLine dict line).tokens = dict.tokens ++
        [⟨splitTextToWords ((goFields line).getD 0 []), f.toNat, 0,
          if 3 ≤ (goFields line).length then (goFields line).getD 2 []
          else []⟩] ∧
      (processLine dict line).totalFrequency = dict.totalFrequency + f.toNat ∧
      (processLine dict line).maxTokenLength = max dict.maxTokenLength
        (splitTextToWords ((goFields line).getD 0 [])).length) := by
  unfold processLine
  dsimp only
  by_cases h2 : (goFields line).length < 2
  · rw [if_pos h2]
    constructor
    · exact ⟨fun _ => Or.inl h2, fun _ => rfl⟩
    · intro f hf2
      omega
  · rw [if_neg h2]
    cases hat : atoiBytes ((goFields line).getD 1 []) with
    | none =>
      constructor
      · exact ⟨fun _ => Or.inr (Or.inl rfl), fun _ => rfl⟩
      · intro f _ hsome
        cases hsome
    | some f0 =>
      dsimp only
      by_cases hf : f0 < minTokenFrequency
      · rw [if_pos hf]
        have hf' : f0 < 2 := hf
        constructor
        · exact ⟨fun _ => Or.inr (Or.inr ⟨f0, rfl, hf'⟩), fun _ => rfl⟩
        · intro f _ hsome hge
          injection hsome with hh
          subst hh
          omega
      · rw [if_neg hf]
        constructor
        · constructor
          · intro heq
            exfalso
            have hlen : (addToken dict
                ⟨splitTextToWords ((goFields line).getD 0 []), f0.toNat, 0,
                  if 3 ≤ (goFields line).length then (goFields line).getD 2 []
                  else []⟩).tokens.length = dict.tokens.length + 1 := by
              simp [addToken]
            rw [heq] at hlen
            omega
          · intro hbad
            exfalso
            rcases hbad with hb | hb | ⟨f, hsf, hlt⟩
            · exact h2 hb
            · cases hb
            · injection hsf with hh
              subst hh
              have hf2 : ¬ f0 < 2 := hf
              omega
        · intro f _ hsome _
          injection hsome with hh
          subst hh
          refine ⟨?_, ?_, ?_⟩ <;> simp [addToken]

theorem c6_witness :
    (processLine NewDictionary [119, 32, 49] = NewDictionary ↔
      ((goFields [119, 32, 49]).length < 2 ∨
        atoiBytes ((goFields [119, 32, 49]).getD 1 []) = none ∨
        ∃ f : Int, atoiBytes ((goFields [119, 32, 49]).getD 1 []) = some f ∧
          f < 2)) ∧
    (processLine NewDictionary
        [229, 140, 151, 228, 186, 172, 227, 128, 128, 53]).tokens =
      NewDictionary.tokens ++
      [⟨splitTextToWords ((goFields
          [229, 140, 151, 228, 186, 172, 227, 128, 128, 53]).getD 0 []),
        (5 : Int).toNat, 0,
        if 3 ≤ (goFields
            [229, 140, 151, 228, 186, 172, 227, 128, 128, 53]).length then
          (goFields [229, 140, 151, 228, 186, 172, 227, 128, 128, 53]).getD 2 []
        else []⟩] :=
  ⟨(c6_record_filter NewDictionary [119, 32, 49]).1,
    ((c6_record_filter NewDictionary
        [229, 140, 151, 228, 186, 172, 227, 128, 128, 53]).2 5 (by decide)
      (by decide) (by decide)).1⟩

theorem processLine_total_inv (d : Dictionary) (line : List Nat)
    (h : d.totalFrequency = (d.tokens.map Token.frequency).sum) :
    (processLine d line).totalFrequency =
      ((processLine d line).tokens.map Token.frequency).sum := by
  unfold processLine
  dsimp only
  by_cases h2 : (goFields line).length < 2
  · rw [if_pos h2]
    exact h
  · rw [if_neg h2]
    cases atoiBytes ((goFields line).getD 1 []) with
    | none => exact h
    | some f =>
      dsimp only
      by_cases hf : f < minTokenFrequency
      · rw [if_pos hf]
        exact h
      · rw [if_neg hf]
        simp [addToken, h]

theorem loadDictionary_total_eq_sum (content : List Nat) :
    ((Segmenter.LoadDictionary content).dict).totalFrequency =
      (((Segmenter.LoadDictionary content).dict).tokens.map
        Token.frequency).sum := by
  unfold Segmenter.LoadDictionary
  dsimp only
  have h : ∀ (lines : List (List Nat)) (d : Dictionary),
      d.totalFrequency = (d.tokens.map Token.frequency).sum →
      (lines.foldl processLine d).totalFrequency =
        ((lines.foldl processLine d).tokens.map Token.frequency).sum := by
    intro lines
    induction lines with
    | nil => exact fun d hd => hd
    | cons l ls ih =>
      intro d hd
      rw [List.foldl_cons]
      exact ih _ (processLine_total_inv d l hd)
  exact h _ NewDictionary rfl

/-- C7: after `LoadDictionary` finishes loading, every stored token's
assigned cost equals `log2(totalFrequency) - log2(frequency)`, where the
`totalFrequency` used is the sum of the frequencies of all accepted
tokens. -/
theorem c7_cost_formula (content : List Nat) (i : Nat)
    (hi : i < ((Segmenter.LoadDictionary content).dict).tokens.length) :
    (tokenCosts ((Segmenter.LoadDictionary content).dict)).getD i 0 =
      Real.logb 2 ((((Segmenter.LoadDictionary content).dict).tokens.map
        Token.frequency).sum) -
      Real.logb 2 ((((Segmenter.LoadDictionary content).dict).tokens.getD i
        default).frequency) := by
  unfold tokenCosts
  have hml : i < (((Segmenter.LoadDictionary content).dict).tokens.map
      (fun t => realCost ((Segmenter.LoadDictionary content).dict).totalFrequency
        t.frequency)).length := by
    simpa using hi
  rw [List.getD_eq_getElem _ 0 hml, List.getElem_map,
    List.getD_eq_getElem _ default hi]
  unfold realCost
  simp only [loadDictionary_total_eq_sum content]

theorem c7_witness :
    0 < ((Segmenter.LoadDictionary [97, 98, 32, 53]).dict).tokens.length ∧
    (tokenCosts ((Segmenter.LoadDictionary [97, 98, 32, 53]).dict)).getD 0 0 =
      Real.logb 2 ((((Segmenter.LoadDictionary [97, 98, 32, 53]).dict).tokens.map
        Token.frequency).sum) -
      Real.logb 2 ((((Segmenter.LoadDictionary [97, 98, 32, 53]).dict).tokens.getD
        0 default).frequency) :=
  ⟨by decide, c7_cost_formula [97, 98, 32, 53] 0 (by decide)⟩

